import Mathlib

/-!
Verification of the record-to-load pipeline of `pipelinewise-target-snowflake`
(`target_snowflake/file_formats/csv.py`), shallowly embedded in Lean 4.

Python strings are modelled as Lean `String` (a wrapper around `List Char`),
Python `dict`s as insertion-ordered association lists, and JSON-style nested
record values as the inductive type `Value` below.  Machine-level concerns
(file descriptors, bytes-vs-str) are abstracted: the byte content written to a
file is modelled as the string of characters written, encoded one row per
record.

The flattening module (`target_snowflake/flattening.py`) is imported by the
CSV module but is not part of the given sources; it is modelled from the
specification where needed (see `flatten_record`).
-/

namespace TargetSnowflake

/-- JSON-like values carried by Singer records: `null`, booleans, integers
(numeric values are modelled as integers), strings, arrays and objects.
Objects are insertion-ordered association lists, mirroring Python dicts. -/
inductive Value where
  | vNull : Value
  | vBool (b : Bool) : Value
  | vInt (n : Int) : Value
  | vStr (s : String) : Value
  | vArr (xs : List Value) : Value
  | vObj (fields : List (String × Value)) : Value

/-- Python truthiness of a value (`bool(v)`): `None`, `0`, `False`, the empty
string, the empty list and the empty dict are falsy; everything else truthy. -/
def pyTruthy : Value → Bool
  | .vNull => false
  | .vBool b => b
  | .vInt n => !(n == 0)
  | .vStr s => !(s == "")
  | .vArr xs => !xs.isEmpty
  | .vObj fs => !fs.isEmpty

/-- Python equality test `v == 0`: true for the integer `0` and for `False`
(Python booleans compare equal to integers), false for every other value. -/
def pyEqZero : Value → Bool
  | .vInt n => n == 0
  | .vBool b => !b
  | _ => false

/-- Scalar (non-container) values: everything a flattened record can hold. -/
def isScalar : Value → Bool
  | .vArr _ => false
  | .vObj _ => false
  | _ => true

/-- Decimal digits of a positive natural number, most significant first;
`fuel`-structured so that the kernel can evaluate it (`fuel ≥ n` suffices). -/
def natCharsAux : Nat → Nat → List Char
  | 0, _ => []
  | fuel + 1, n =>
    if n = 0 then [] else natCharsAux fuel (n / 10) ++ [Char.ofNat (48 + n % 10)]

/-- Decimal rendering of a natural number, as Python's `str`/f-string does. -/
def natChars (n : Nat) : List Char :=
  if n = 0 then ['0'] else natCharsAux n n

/-- Decimal rendering of a natural number as a `String`. -/
def natStr (n : Nat) : String := ⟨natChars n⟩

/-- Decimal rendering of an integer (as Python's `json.dumps`/`str`). -/
def intChars (i : Int) : List Char :=
  if i < 0 then '-' :: natChars i.natAbs else natChars i.natAbs

/-- Python's `sep.join(parts)`. -/
def joinWith (sep : String) : List String → String
  | [] => ""
  | [x] => x
  | x :: y :: rest => x ++ sep ++ joinWith sep (y :: rest)

/-- A Column Expression, the element type of the `columns` list taken by the
SQL generators: `{name, value, trans}` with a literal SQL `value` (or the
empty string) and a transformation/cast function name `trans`. -/
structure ColumnSpec where
  name : String
  value : String
  trans : String

/-- The column-expression loop of `select_from_stage`: for every column whose
`value` is empty (falsy) the next 1-based positional index `$idx` is consumed
and `trans($idx)` is built, otherwise the literal `value` is used verbatim;
either way the expression is joined with the column name by a space.
`idx` is the running counter (number of positional columns already used). -/
def columnExprs : Nat → List ColumnSpec → List String
  | _, [] => []
  | idx, c :: rest =>
    if c.value = "" then
      (c.trans ++ "($" ++ natStr (idx + 1) ++ ")" ++ " " ++ c.name)
         :: columnExprs (idx + 1) rest
    else
      (c.value ++ " " ++ c.name) :: columnExprs idx rest

/-- The `select_options` dict of `select_from_stage`: always contains the
`FILE_FORMAT`, and additionally `PATTERN => s3_key` when
`restrict_file_pattern` is set (Python dicts preserve insertion order). -/
def selectOptions (file_format_name s3_key : String) (restrict_file_pattern : Bool) :
    List (String × String) :=
  [("FILE_FORMAT", file_format_name)]
    ++ (if restrict_file_pattern then [("PATTERN", s3_key)] else [])

/-- The `options_clause` string of `select_from_stage`:
`', '.join(f"\x7bk\x7d => '\x7bv\x7d'" for k, v in select_options.items())`. -/
def optionsClause (file_format_name s3_key : String) (restrict_file_pattern : Bool) :
    String :=
  joinWith ", "
    ((selectOptions file_format_name s3_key restrict_file_pattern).map
      (fun kv => kv.1 ++ " => \x27" ++ kv.2 ++ "\x27"))

/-- Embedding of `select_from_stage` (csv.py): builds
`SELECT <exprs> FROM '@<stage>/<key>' (<options>)`. -/
def select_from_stage (columns : List ColumnSpec)
    (file_format_name s3_key stage_name : String)
    (restrict_file_pattern : Bool) : String :=
  "SELECT " ++ joinWith ", " (columnExprs 0 columns)
    ++ " FROM \x27@" ++ stage_name ++ "/" ++ s3_key ++ "\x27 ("
    ++ optionsClause file_format_name s3_key restrict_file_pattern ++ ")"

/-- Embedding of `create_copy_sql` (csv.py): the bulk-insert statement
`COPY INTO <table> (<column names>) FROM (<staged read>)`. -/
def create_copy_sql (table_name stage_name s3_key file_format_name : String)
    (columns : List ColumnSpec) (restrict_file_pattern : Bool) : String :=
  "COPY INTO " ++ table_name ++ " ("
    ++ joinWith ", " (columns.map (·.name))
    ++ ") FROM ("
    ++ select_from_stage columns file_format_name s3_key stage_name restrict_file_pattern
    ++ ")"

/-- The `UPDATE SET` assignment list of `create_merge_sql`:
`', '.join(f"\x7bname\x7d=s.\x7bname\x7d" for each column)`. -/
def mergeUpdateList (columns : List ColumnSpec) : String :=
  joinWith ", " (columns.map (fun c => c.name ++ "=s." ++ c.name))

/-- Embedding of `create_merge_sql` (csv.py): the bulk-upsert statement
`MERGE INTO ... WHEN MATCHED THEN UPDATE SET ... WHEN NOT MATCHED THEN
INSERT ... VALUES ...`. -/
def create_merge_sql (table_name stage_name s3_key file_format_name : String)
    (columns : List ColumnSpec) (pk_merge_condition : String)
    (restrict_file_pattern : Bool) : String :=
  "MERGE INTO " ++ table_name ++ " t USING ("
    ++ select_from_stage columns file_format_name s3_key stage_name restrict_file_pattern
    ++ ") s ON " ++ pk_merge_condition
    ++ " WHEN MATCHED THEN UPDATE SET " ++ mergeUpdateList columns
    ++ " WHEN NOT MATCHED THEN "
    ++ "INSERT (" ++ joinWith ", " (columns.map (·.name))
    ++ ") "
    ++ "VALUES (" ++ joinWith ", " (columns.map (fun c => "s." ++ c.name))
    ++ ")"

/-- Boolean test that `p` is a prefix of `l` (character lists). -/
def listIsPre : List Char → List Char → Bool
  | [], _ => true
  | _ :: _, [] => false
  | a :: as, b :: bs => a == b && listIsPre as bs

/-- Boolean test that `p` is a suffix of `l` (character lists). -/
def listIsSuf (p l : List Char) : Bool := listIsPre p.reverse l.reverse

/-- Number of occurrences (start positions) of the pattern `pat` in `s`. -/
def countOcc (pat : List Char) : List Char → Nat
  | [] => if listIsPre pat [] then 1 else 0
  | c :: rest => (if listIsPre pat (c :: rest) then 1 else 0) + countOcc pat rest

/-- Boolean substring test: `pat` occurs somewhere in `s`. -/
def containsSub (pat : List Char) : List Char → Bool
  | [] => listIsPre pat []
  | c :: rest => listIsPre pat (c :: rest) || containsSub pat rest

/-- Lowercase hexadecimal digit for `k < 16`. -/
def hexDigitChar (k : Nat) : Char :=
  if k < 10 then Char.ofNat (48 + k) else Char.ofNat (87 + k)

/-- Per-character escaping of Python's `json.dumps(..., ensure_ascii=False)`:
backslash, double quote and the named control characters get two-character
escapes, the remaining control characters get `\u00XX`, and every other
character is emitted literally. -/
def escapeChar (c : Char) : List Char :=
  if c = '\\' then ['\\', '\\']
  else if c = '"' then ['\\', '"']
  else if c = '\n' then ['\\', 'n']
  else if c = '\r' then ['\\', 'r']
  else if c = '\t' then ['\\', 't']
  else if c = '\x08' then ['\\', 'b']
  else if c = '\x0c' then ['\\', 'f']
  else if c.toNat < 32 then
    ['\\', 'u', '0', '0', hexDigitChar (c.toNat / 16), hexDigitChar (c.toNat % 16)]
  else [c]

/-- String-content escaping: concatenation of the per-character escapes. -/
def escapeChars : List Char → List Char
  | [] => []
  | c :: rest => escapeChar c ++ escapeChars rest

/-- Join character lists with a separator (the char-list `str.join`). -/
def joinChars (sep : List Char) : List (List Char) → List Char
  | [] => []
  | [x] => x
  | x :: y :: rest => x ++ sep ++ joinChars sep (y :: rest)

/-- Embedding of `json.dumps(v, ensure_ascii=False)` for `Value`s: `null`,
`true`/`false`, decimal integers, quoted strings with escaped content, and
recursively `[..]` arrays and `\x7b..\x7d` objects with Python's default
`', '` and `': '` separators. -/
def jsonDumps : Value → List Char
  | .vNull => "null".data
  | .vBool true => "true".data
  | .vBool false => "false".data
  | .vInt i => intChars i
  | .vStr s => '"' :: (escapeChars s.data ++ ['"'])
  | .vArr xs =>
    '[' :: (joinChars ", ".data (xs.attach.map fun x => jsonDumps x.1) ++ [']'])
  | .vObj fs =>
    '\x7b' :: (joinChars ", ".data
      (fs.attach.map fun kv =>
        ('"' :: (escapeChars kv.1.1.data ++ ['"', ':', ' '])) ++ jsonDumps kv.1.2)
      ++ ['\x7d'])
decreasing_by
  · simp_wf
    have := List.sizeOf_lt_of_mem x.2
    omega
  · simp_wf
    have h1 := List.sizeOf_lt_of_mem kv.2
    have h2 : sizeOf kv.1.2 < sizeOf kv.1 := by
      obtain ⟨a, b⟩ := kv.1
      simp +arith
    omega

/-- A record, as handed to the encoder: an insertion-ordered mapping from
field name to (possibly nested) value, i.e. the fields of a Python dict. -/
abbrev RecordData := List (String × Value)

/-- A batch: insertion-ordered mapping from opaque record-id to record,
modelling the `records: Dict` argument of the encoder. -/
abbrev Batch := List (String × RecordData)

/-- Modelled from the spec: the flattening module (`target_snowflake.flattening`,
absent from the given sources).  Walks the record's fields; a nested object
within the depth budget is merged into the parent namespace under
`parent__child` keys; an object at the depth limit, and any array, is
serialized as a single value (its compact JSON text); scalars are kept.
`level` is the current depth and `maxLevel` the configured maximum. -/
def flattenAux : String → Nat → Nat → List (String × Value) → List (String × Value)
  | _, _, _, [] => []
  | parentKey, level, maxLevel, (k, v) :: rest =>
    (match v with
     | .vObj fields =>
       if level < maxLevel then
         flattenAux (if parentKey = "" then k else parentKey ++ "__" ++ k)
           (level + 1) maxLevel fields
       else [((if parentKey = "" then k else parentKey ++ "__" ++ k), .vStr ⟨jsonDumps v⟩)]
     | .vArr xs =>
       [((if parentKey = "" then k else parentKey ++ "__" ++ k), .vStr ⟨jsonDumps (.vArr xs)⟩)]
     | w => [((if parentKey = "" then k else parentKey ++ "__" ++ k), w)])
      ++ flattenAux parentKey level maxLevel rest
termination_by _ _ _ l => sizeOf l
decreasing_by
  all_goals simp_wf
  all_goals omega

/-- Modelled from the spec: `flatten_record(record, max_level)` — flatten a
nested record to a flat column-to-scalar mapping (collisions resolved by the
last write, see `lookupLast`). -/
def flatten_record (record : RecordData) (max_level : Nat) : List (String × Value) :=
  flattenAux "" 0 max_level record

/-- Lookup in an association list built `dict(items)`-style: the *last*
binding of a key wins, mirroring Python dict construction from pairs. -/
def lookupLast (l : List (String × Value)) (k : String) : Option Value :=
  match l with
  | [] => none
  | (k2, v) :: rest =>
    match lookupLast rest k with
    | some r => some r
    | none => if k2 = k then some v else none

/-- One field of the CSV line (the comprehension body in `record_to_csv_line`):
`json.dumps(flat[column], ensure_ascii=False)` if the column is present and
`flat[column] == 0 or flat[column]` holds, else the empty field. -/
def csvField (flat : List (String × Value)) (column : String) : String :=
  match lookupLast flat column with
  | some v => if pyEqZero v || pyTruthy v then ⟨jsonDumps v⟩ else ""
  | none => ""

/-- Embedding of `record_to_csv_line` (csv.py): flatten the record, then join
the per-column fields of the schema (in schema order) with `','`. -/
def record_to_csv_line (record : RecordData) (schema : List String)
    (data_flattening_max_level : Nat) : String :=
  joinWith ","
    (schema.map (csvField (flatten_record record data_flattening_max_level)))

/-- Concatenation of newline-terminated lines, the text written by the
`outfile.write(bytes(csv_line + '\n', 'UTF-8'))` loop. -/
def fileLinesContent : List String → String
  | [] => ""
  | l :: rest => l ++ "\n" ++ fileLinesContent rest

/-- Embedding of `write_records_to_file` (csv.py): one line per record of the
batch, iterated over `records.values()` in insertion order; the result is the
full text written to the open file. -/
def write_records_to_file (records : Batch) (schema : List String)
    (data_flattening_max_level : Nat) : String :=
  fileLinesContent
    (records.map fun kv => record_to_csv_line kv.2 schema data_flattening_max_level)

/-- The persistent store: a list of (absolute path, content) pairs, one per
existing file, in creation order. -/
abbrev FileSystem := List (String × String)

/-- Candidate temporary-file name number `k` for the given directory,
name prefix and suffix (mirroring `mkstemp`'s `dir`, its name template and
`suffix`). -/
def tmpName (dir pre suf : String) (k : Nat) : String :=
  dir ++ "/" ++ pre ++ natStr k ++ suf

/-- First candidate that is not an existing path. -/
def findFresh (paths : List String) : List String → Option String
  | [] => none
  | c :: cs => if c ∈ paths then findFresh paths cs else some c

/-- Modelled from the spec and the documented behaviour of `tempfile.mkstemp`
(an external collaborator): returns a path in the requested directory, built
from the prefix and suffix, that does not collide with any existing file.
The first fresh candidate among `fs.length + 1` numbered candidates is used
(one always exists, see `mkstempPath_fresh`). -/
def mkstempPath (fs : FileSystem) (dir pre suf : String) : String :=
  (findFresh (fs.map (·.1))
    ((List.range (fs.length + 1)).map (tmpName dir pre suf))).getD ""

/-- Modelled from the spec: the absolute directory used for the temporary
file — the caller-supplied directory made absolute (`os.path.abspath`, with
`/cwd` standing for the working directory), or the system temp directory. -/
def absoluteDir : Option String → String
  | none => "/tmp"
  | some d => if listIsPre "/".data d.data then d else "/cwd/" ++ d

/-- A path is absolute when it starts at the filesystem root. -/
def isAbsolutePath (p : String) : Bool := listIsPre "/".data p.data

/-- Embedding of `records_to_file` (csv.py) over the filesystem model:
allocates a fresh temporary file named `<pre>...<.suffix[.gz]>` in the
destination (or default temp) directory, writes the encoded batch (through
the gzip writer `gz` when `compression` is set), and returns the new store
together with the generated path.  `os.makedirs` only affects directories,
which the store does not track. -/
def records_to_file (gz : String → String) (fs : FileSystem)
    (records : Batch) (schema : List String) (suffix pre : String)
    (compression : Bool) (dest_dir : Option String)
    (data_flattening_max_level : Nat) : FileSystem × String :=
  let file_suffix := if compression then "." ++ suffix ++ ".gz" else "." ++ suffix
  let filename := mkstempPath fs (absoluteDir dest_dir) pre file_suffix
  let text := write_records_to_file records schema data_flattening_max_level
  let content := if compression then gz text else text
  (fs ++ [(filename, content)], filename)

/-- Value of a decimal digit character, if it is one. -/
def digitVal (c : Char) : Option Nat :=
  if 48 ≤ c.toNat ∧ c.toNat ≤ 57 then some (c.toNat - 48) else none

/-- Accumulating decimal parser over a digit list. -/
def parseNatAux : Nat → List Char → Option Nat
  | acc, [] => some acc
  | acc, c :: cs =>
    match digitVal c with
    | some d => parseNatAux (acc * 10 + d) cs
    | none => none

/-- Decimal parser for a (nonempty) digit string. -/
def parseNatChars (l : List Char) : Option Nat :=
  if l = [] then none else parseNatAux 0 l

/-- Decimal integer parser: an optional leading `'-'` then digits. -/
def parseIntChars : List Char → Option Int
  | [] => none
  | c :: rest =>
    if c = '-' then (parseNatChars rest).map (fun n => -(n : Int))
    else (parseNatChars (c :: rest)).map (fun n => (n : Int))

/-- Value of a lowercase hexadecimal digit character, if it is one. -/
def hexVal (c : Char) : Option Nat :=
  if 48 ≤ c.toNat ∧ c.toNat ≤ 57 then some (c.toNat - 48)
  else if 97 ≤ c.toNat ∧ c.toNat ≤ 102 then some (c.toNat - 87)
  else none

/-- Decoding of a two-character escape `\e`, when `e` is not `u`. -/
def simpleUnescChar (e : Char) : Option Char :=
  if e = '\\' then some '\\'
  else if e = '"' then some '"'
  else if e = 'n' then some '\n'
  else if e = 'r' then some '\r'
  else if e = 't' then some '\t'
  else if e = 'b' then some '\x08'
  else if e = 'f' then some '\x0c'
  else none

/-- Unescaping of quoted-string content under the JSON convention used by the
encoder: `\uXXXX` and the two-character escapes are decoded, an unescaped
double quote (which would end the field early) is rejected. -/
def unescape : List Char → Option (List Char)
  | [] => some []
  | c :: rest =>
    if c = '"' then none
    else if c = '\\' then
      match rest with
      | [] => none
      | e :: rest2 =>
        if e = 'u' then
          match rest2 with
          | a :: b :: c2 :: d :: rest3 =>
            (match hexVal a, hexVal b, hexVal c2, hexVal d with
             | some x1, some x2, some x3, some x4 =>
               (unescape rest3).map
                 (fun l => Char.ofNat (((x1 * 16 + x2) * 16 + x3) * 16 + x4) :: l)
             | _, _, _, _ => none)
          | _ => none
        else
          match simpleUnescChar e with
          | some u => (unescape rest2).map (fun l => u :: l)
          | none => none
    else (unescape rest).map (fun l => c :: l)

/-- Reading one field back under the encoding convention: the empty field is
"no value", the JSON literals decode to themselves, a quoted field decodes by
unescaping its content, anything else is read as a decimal integer. -/
def decodeField (s : String) : Option Value :=
  if s = "" then none
  else if s = "null" then some .vNull
  else if s = "true" then some (.vBool true)
  else if s = "false" then some (.vBool false)
  else if listIsPre ['"'] s.data then
    (unescape (s.data.drop 1).dropLast).map (fun cs => .vStr ⟨cs⟩)
  else (parseIntChars s.data).map .vInt

/-- State machine of the delimiter/quoting convention: scans a character list
given the current in-quote and escaped flags; returns the final flags, or
`none` if a top-level (unquoted) comma is met. -/
def scanField : Bool → Bool → List Char → Option (Bool × Bool)
  | inQ, esc, [] => some (inQ, esc)
  | true, true, _ :: rest => scanField true false rest
  | true, false, c :: rest =>
    if c = '\\' then scanField true true rest
    else if c = '"' then scanField false false rest
    else scanField true false rest
  | false, _, c :: rest =>
    if c = ',' then none
    else if c = '"' then scanField true false rest
    else scanField false false rest

/-- A character list is a neutral field when scanning it from the top level
ends at the top level without meeting a top-level comma: such a list is read
back as exactly one field by the delimiter/quoting convention. -/
def neutralField (l : List Char) : Prop :=
  scanField false false l = some (false, false)

/-- Splitting a row into its delimiter-separated fields, honouring the
quoting convention: commas inside a (backslash-escaped) quoted run do not
separate.  `cur` is the reversed current field. -/
def splitFieldsAux : Bool → Bool → List Char → List Char → List (List Char)
  | _, _, cur, [] => [cur.reverse]
  | true, true, cur, c :: rest => splitFieldsAux true false (c :: cur) rest
  | true, false, cur, c :: rest =>
    if c = '\\' then splitFieldsAux true true (c :: cur) rest
    else if c = '"' then splitFieldsAux false false (c :: cur) rest
    else splitFieldsAux true false (c :: cur) rest
  | false, _, cur, c :: rest =>
    if c = ',' then cur.reverse :: splitFieldsAux false false [] rest
    else if c = '"' then splitFieldsAux true false (c :: cur) rest
    else splitFieldsAux false false (c :: cur) rest

/-- The delimiter-separated fields of one text row. -/
def splitFields (s : String) : List String :=
  (splitFieldsAux false false [] s.data).map (fun l => ⟨l⟩)

/-- Split a character list at every occurrence of `sep` (accumulator holds
the reversed current piece). -/
def splitCharAux (sep : Char) : List Char → List Char → List (List Char)
  | cur, [] => [cur.reverse]
  | cur, c :: rest =>
    if c = sep then cur.reverse :: splitCharAux sep [] rest
    else splitCharAux sep (c :: cur) rest

/-- The text rows of a newline-terminated file content: the pieces between
newlines, without the empty piece after the final newline. -/
def textRows (s : String) : List String :=
  ((splitCharAux '\n' [] s.data).map (fun l => (⟨l⟩ : String))).dropLast

/-- The specification's wording of the staged-column expressions, used to
check `columnExprs` against it: for the `i`-th Column Expression, a literal
`value` is used verbatim; otherwise the positional index is the count of
value-less columns among the first `i + 1` (1-based, counting only columns
lacking a literal value, in list order), and `trans($idx)` is built; either
way the column name follows after a space. -/
def columnExprsSpec (cols : List ColumnSpec) : List String :=
  cols.mapIdx fun i c =>
    if c.value = "" then
      c.trans ++ "($"
        ++ natStr ((cols.take (i + 1)).countP (fun x => x.value == ""))
        ++ ")" ++ " " ++ c.name
    else c.value ++ " " ++ c.name

/-! ## Theorems -/

/-- C5: on the concrete column list
`[\x7bname:"id", value:"", trans:"to_number"\x7d, \x7bname:"name", value:"'x'", trans:""\x7d]`,
stage `S1`, key `k1`, file format `F` and `restrict_file_pattern = false`,
`select_from_stage` returns exactly
`SELECT to_number($1) id, 'x' name FROM '@S1/k1' (FILE_FORMAT => 'F')`. -/
theorem select_from_stage_concrete_example :
    select_from_stage
      [⟨"id", "", "to_number"⟩, ⟨"name", "\x27x\x27", ""⟩] "F" "k1" "S1" false
    = "SELECT to_number($1) id, \x27x\x27 name FROM \x27@S1/k1\x27 (FILE_FORMAT => \x27F\x27)" := by
  decide

/-- C10: the encoded file content depends only on the sequence of record
values of the batch, in insertion order; the record-ids never influence it —
two batches with equal value sequences produce byte-identical content. -/
theorem record_ids_never_influence_output (b1 b2 : Batch) (schema : List String)
    (ml : Nat) (h : b1.map Prod.snd = b2.map Prod.snd) :
    write_records_to_file b1 schema ml = write_records_to_file b2 schema ml := by
  unfold write_records_to_file
  have h1 : ∀ (b : Batch), b.map (fun kv => record_to_csv_line kv.2 schema ml)
      = (b.map Prod.snd).map (fun r => record_to_csv_line r schema ml) := by
    intro b
    rw [List.map_map]
    rfl
  rw [h1, h1, h]

/-- Witness for C10 at a concrete input: two one-record batches with distinct
record-ids but the same record value encode to the same content. -/
theorem record_ids_never_influence_output_witness :
    ([("id1", [("a", Value.vInt 1)])] : Batch).map Prod.snd
      = ([("id2", [("a", Value.vInt 1)])] : Batch).map Prod.snd ∧
    write_records_to_file [("id1", [("a", Value.vInt 1)])] ["a"] 0
      = write_records_to_file [("id2", [("a", Value.vInt 1)])] ["a"] 0 :=
  ⟨rfl, record_ids_never_influence_output _ _ _ _ rfl⟩

/-- C7: the encoder's emptiness filter (`flat[col] == 0 or flat[col]`) treats
the flattened values `0` and `False` as present — their encodings `0` and
`false` are written — but treats the empty string, the empty list and the
empty dict as absent, writing an empty field. -/
theorem truthy_filter_asymmetry (flat : List (String × Value)) (col : String)
    (v : Value) (h : lookupLast flat col = some v) :
    (v = .vInt 0 → csvField flat col = "0") ∧
    (v = .vBool false → csvField flat col = "false") ∧
    (v = .vStr "" → csvField flat col = "") ∧
    (v = .vArr [] → csvField flat col = "") ∧
    (v = .vObj [] → csvField flat col = "") := by
  refine ⟨?_, ?_, ?_, ?_, ?_⟩ <;> rintro rfl <;>
    simp [csvField, h, pyEqZero, pyTruthy, jsonDumps, intChars, natChars]

/-- Witness for C7: a record binding the column to `0` has an emitted `0`
field. -/
theorem truthy_filter_asymmetry_witness :
    lookupLast [("c", Value.vInt 0)] "c" = some (Value.vInt 0) ∧
    ((Value.vInt 0 = .vInt 0 → csvField [("c", Value.vInt 0)] "c" = "0") ∧
     (Value.vInt 0 = .vBool false → csvField [("c", Value.vInt 0)] "c" = "false") ∧
     (Value.vInt 0 = .vStr "" → csvField [("c", Value.vInt 0)] "c" = "") ∧
     (Value.vInt 0 = .vArr [] → csvField [("c", Value.vInt 0)] "c" = "") ∧
     (Value.vInt 0 = .vObj [] → csvField [("c", Value.vInt 0)] "c" = "")) :=
  ⟨rfl, truthy_filter_asymmetry _ _ _ rfl⟩

/-- Generalisation of C3 to an arbitrary starting counter `idx`. -/
theorem columnExprs_eq_mapIdx (cols : List ColumnSpec) (idx : Nat) :
    columnExprs idx cols = cols.mapIdx (fun i c =>
      if c.value = "" then
        c.trans ++ "($"
          ++ natStr (idx + (cols.take (i + 1)).countP (fun x => x.value == ""))
          ++ ")" ++ " " ++ c.name
      else c.value ++ " " ++ c.name) := by
  induction cols generalizing idx with
  | nil => simp [columnExprs]
  | cons c rest ih =>
    rw [List.mapIdx_cons]
    by_cases hv : c.value = ""
    · rw [show columnExprs idx (c :: rest)
          = (c.trans ++ "($" ++ natStr (idx + 1) ++ ")" ++ " " ++ c.name)
            :: columnExprs (idx + 1) rest by simp [columnExprs, hv]]
      refine congrArg₂ (· :: ·) ?_ ?_
      · simp [hv, List.countP_cons]
      · rw [ih (idx + 1)]
        apply congrArg₂ List.mapIdx ?_ rfl
        funext i cc
        by_cases hcc : cc.value = ""
        · have harith : idx + 1 + (List.take (i + 1) rest).countP (fun x => x.value == "")
              = idx + ((List.take (i + 1) rest).countP (fun x => x.value == "")
                + (if (c.value == "") = true then 1 else 0)) := by
            simp [hv]
            omega
          simp only [hcc, if_pos, List.take_succ_cons, List.countP_cons, harith]
        · simp [hcc]
    · rw [show columnExprs idx (c :: rest)
          = (c.value ++ " " ++ c.name) :: columnExprs idx rest by simp [columnExprs, hv]]
      refine congrArg₂ (· :: ·) (by simp [hv]) ?_
      rw [ih idx]
      apply congrArg₂ List.mapIdx ?_ rfl
      funext i cc
      by_cases hcc : cc.value = ""
      · have hcb : (c.value == "") = false := by
          simp [hv]
        simp only [hcc, if_pos, List.take_succ_cons, List.countP_cons, hcb]
        simp
      · simp [hcc]

/-- C3: the staged-column expressions built by `select_from_stage` match the
specification's description — a column with a literal `value` uses it
verbatim, and a column with an empty `value` gets `trans($idx)` where `idx`
is the 1-based count of value-less columns up to and including it, in list
order (hence positional indices are assigned only to value-less columns,
strictly increasing, independent of interleaved literal-value columns). -/
theorem select_from_stage_positional_indices (cols : List ColumnSpec) :
    columnExprs 0 cols = columnExprsSpec cols := by
  rw [columnExprs_eq_mapIdx cols 0]
  unfold columnExprsSpec
  apply congrArg₂ List.mapIdx ?_ rfl
  funext i c
  simp

/-! ### Character-class facts -/

/-- Two characters with different code points differ. -/
theorem char_ne_of_toNat_ne {x y : Char} (h : x.toNat ≠ y.toNat) : x ≠ y :=
  fun hxy => h (congrArg Char.toNat hxy)

/-- Every character of `natCharsAux` is a decimal digit. -/
theorem natCharsAux_digits :
    ∀ fuel n x, x ∈ natCharsAux fuel n → 48 ≤ x.toNat ∧ x.toNat ≤ 57 := by
  intro fuel
  induction fuel with
  | zero =>
    intro n x hx
    simp [natCharsAux] at hx
  | succ f ih =>
    intro n x hx
    by_cases h0 : n = 0
    · simp [natCharsAux, h0] at hx
    · simp only [natCharsAux, if_neg h0, List.mem_append, List.mem_singleton] at hx
      rcases hx with hx | hx
      · exact ih _ _ hx
      · subst hx
        have h10 : n % 10 < 10 := Nat.mod_lt _ (by norm_num)
        revert h10
        generalize n % 10 = k
        intro h10
        interval_cases k <;> decide

/-- Every character of `natChars` is a decimal digit. -/
theorem natChars_digits : ∀ n x, x ∈ natChars n → 48 ≤ x.toNat ∧ x.toNat ≤ 57 := by
  intro n x hx
  unfold natChars at hx
  by_cases h0 : n = 0
  · simp [h0] at hx
    subst hx
    decide
  · rw [if_neg h0] at hx
    exact natCharsAux_digits _ _ _ hx

/-- Every character of `intChars` is a minus sign or a decimal digit. -/
theorem intChars_tame : ∀ i x, x ∈ intChars i → x = '-' ∨ (48 ≤ x.toNat ∧ x.toNat ≤ 57) := by
  intro i x hx
  unfold intChars at hx
  by_cases hneg : i < 0
  · rw [if_pos hneg] at hx
    rcases List.mem_cons.mp hx with hx | hx
    · exact Or.inl hx
    · exact Or.inr (natChars_digits _ _ hx)
  · rw [if_neg hneg] at hx
    exact Or.inr (natChars_digits _ _ hx)

/-- Hexadecimal digit characters are not newline, quote, backslash or comma. -/
theorem hexDigitChar_tame :
    ∀ k, k < 16 → hexDigitChar k ≠ '\n' ∧ hexDigitChar k ≠ '"'
      ∧ hexDigitChar k ≠ '\\' ∧ hexDigitChar k ≠ ',' := by
  intro k hk
  interval_cases k <;> exact ⟨by decide, by decide, by decide, by decide⟩

/-- Escaping never emits a literal newline. -/
theorem escapeChar_no_newline : ∀ c x, x ∈ escapeChar c → x ≠ '\n' := by
  intro c x hx
  unfold escapeChar at hx
  split_ifs at hx with h1 h2 h3 h4 h5 h6 h7 h8
  · fin_cases hx <;> decide
  · fin_cases hx <;> decide
  · fin_cases hx <;> decide
  · fin_cases hx <;> decide
  · fin_cases hx <;> decide
  · fin_cases hx <;> decide
  · fin_cases hx <;> decide
  · fin_cases hx
    · decide
    · decide
    · decide
    · decide
    · exact (hexDigitChar_tame _ (by omega)).1
    · exact (hexDigitChar_tame _ (Nat.mod_lt _ (by norm_num))).1
  · rcases List.mem_singleton.mp hx with rfl
    intro hc
    subst hc
    exact h8 (by decide)

/-- Characters of an escaped string come from escaping some source char. -/
theorem escapeChars_mem : ∀ l x, x ∈ escapeChars l → ∃ c ∈ l, x ∈ escapeChar c := by
  intro l
  induction l with
  | nil => intro x hx; simp [escapeChars] at hx
  | cons c cs ih =>
    intro x hx
    rcases List.mem_append.mp hx with hx | hx
    · exact ⟨c, List.mem_cons_self c cs, hx⟩
    · obtain ⟨d, hd, hxd⟩ := ih x hx
      exact ⟨d, List.mem_cons_of_mem _ hd, hxd⟩

/-- Characters of a join come from the separator or from one of the parts. -/
theorem joinChars_mem :
    ∀ sep fields x, x ∈ joinChars sep fields → x ∈ sep ∨ ∃ f ∈ fields, x ∈ f := by
  intro sep fields
  induction fields with
  | nil => intro x hx; simp [joinChars] at hx
  | cons f rest ih =>
    intro x hx
    match rest with
    | [] =>
      exact Or.inr ⟨f, List.mem_cons_self _ _, hx⟩
    | g :: rest2 =>
      simp only [joinChars, List.append_assoc, List.mem_append] at hx
      rcases hx with hx | hx | hx
      · exact Or.inr ⟨f, List.mem_cons_self _ _, hx⟩
      · exact Or.inl hx
      · rcases ih x hx with h | ⟨f2, hf2, hxf2⟩
        · exact Or.inl h
        · exact Or.inr ⟨f2, List.mem_cons_of_mem _ hf2, hxf2⟩

/-! ### The field scanner -/

/-- The scanner distributes over concatenation. -/
theorem scanField_append :
    ∀ l1 l2 : List Char, ∀ a b,
      scanField a b (l1 ++ l2) = (scanField a b l1).bind (fun p => scanField p.1 p.2 l2) := by
  intro l1
  induction l1 with
  | nil =>
    intro l2 a b
    simp [scanField]
  | cons c rest ih =>
    intro l2 a b
    match a, b with
    | true, true =>
      simpa only [List.cons_append, scanField] using ih l2 true false
    | true, false =>
      simp only [List.cons_append, scanField]
      by_cases h1 : c = '\\'
      · simp [h1, ih]
      · by_cases h2 : c = '"' <;> simp [h1, h2, ih]
    | false, b =>
      simp only [List.cons_append, scanField]
      by_cases h1 : c = ','
      · simp [h1]
      · by_cases h2 : c = '"' <;> simp [h1, h2, ih]

/-- A list without commas and quotes scans neutrally. -/
theorem scanField_no_special :
    ∀ l : List Char, (∀ x ∈ l, x ≠ ',' ∧ x ≠ '"') → scanField false false l = some (false, false) := by
  intro l
  induction l with
  | nil => intro _; rfl
  | cons c rest ih =>
    intro h
    obtain ⟨hc1, hc2⟩ := h c (List.mem_cons_self _ _)
    simp only [scanField, if_neg hc1, if_neg hc2]
    exact ih (fun x hx => h x (List.mem_cons_of_mem _ hx))

/-- Inside a quoted run, one escaped character leaves the scanner state
unchanged. -/
theorem scanField_inQuote_escapeChar :
    ∀ c rest, scanField true false (escapeChar c ++ rest) = scanField true false rest := by
  intro c rest
  unfold escapeChar
  split_ifs with h1 h2 h3 h4 h5 h6 h7 h8
  · simp [scanField]
  · simp [scanField]
  · simp [scanField]
  · simp [scanField]
  · simp [scanField]
  · simp [scanField]
  · simp [scanField]
  · obtain ⟨-, ha2, ha3, -⟩ := hexDigitChar_tame (c.toNat / 16) (by omega)
    obtain ⟨-, hb2, hb3, -⟩ := hexDigitChar_tame (c.toNat % 16) (Nat.mod_lt _ (by norm_num))
    simp [scanField, ha2, ha3, hb2, hb3]
  · simp [scanField, h1, h2]

/-- Inside a quoted run, escaped content leaves the scanner state unchanged. -/
theorem scanField_inQuote_escapeChars :
    ∀ l rest, scanField true false (escapeChars l ++ rest) = scanField true false rest := by
  intro l
  induction l with
  | nil => intro rest; rfl
  | cons c cs ih =>
    intro rest
    have : escapeChars (c :: cs) ++ rest = escapeChar c ++ (escapeChars cs ++ rest) := by
      simp [escapeChars]
    rw [this, scanField_inQuote_escapeChar, ih]

/-! ### Flattened records hold scalars -/

/-- Every value in the output of the flattener is a scalar: nested objects
are either merged (and their leaves recursively flattened) or serialized to
strings, and arrays are serialized to strings. -/
theorem flattenAux_scalars :
    ∀ (p : String) (lv ml : Nat) (r : List (String × Value)),
      ∀ kv ∈ flattenAux p lv ml r, isScalar kv.2 = true := by
  intro p lv ml r
  induction p, lv, ml, r using flattenAux.induct with
  | case1 => simp [flattenAux]
  | case2 parentKey level maxLevel k v rest ih2 ih1 =>
    intro kv hkv
    cases v with
    | vObj fields =>
      simp only [flattenAux] at hkv
      rcases List.mem_append.mp hkv with hkv | hkv
      · by_cases hlm : level < maxLevel
        · rw [if_pos hlm] at hkv
          exact ih2 kv hkv
        · rw [if_neg hlm] at hkv
          rcases List.mem_singleton.mp hkv with rfl
          rfl
      · exact ih1 kv hkv
    | vArr xs =>
      simp only [flattenAux] at hkv
      rcases List.mem_append.mp hkv with hkv | hkv
      · rcases List.mem_singleton.mp hkv with rfl
        rfl
      · exact ih1 kv hkv
    | vNull =>
      simp only [flattenAux] at hkv
      rcases List.mem_append.mp hkv with hkv | hkv
      · rcases List.mem_singleton.mp hkv with rfl
        rfl
      · exact ih1 kv hkv
    | vBool b =>
      simp only [flattenAux] at hkv
      rcases List.mem_append.mp hkv with hkv | hkv
      · rcases List.mem_singleton.mp hkv with rfl
        rfl
      · exact ih1 kv hkv
    | vInt n =>
      simp only [flattenAux] at hkv
      rcases List.mem_append.mp hkv with hkv | hkv
      · rcases List.mem_singleton.mp hkv with rfl
        rfl
      · exact ih1 kv hkv
    | vStr s =>
      simp only [flattenAux] at hkv
      rcases List.mem_append.mp hkv with hkv | hkv
      · rcases List.mem_singleton.mp hkv with rfl
        rfl
      · exact ih1 kv hkv

/-- A successful `lookupLast` returns a value bound in the list. -/
theorem lookupLast_mem :
    ∀ (l : List (String × Value)) (k : String) (v : Value),
      lookupLast l k = some v → ∃ k2, (k2, v) ∈ l := by
  intro l
  induction l with
  | nil =>
    intro k v h
    simp [lookupLast] at h
  | cons kv rest ih =>
    intro k v h
    obtain ⟨k2, v2⟩ := kv
    simp only [lookupLast] at h
    cases hrec : lookupLast rest k with
    | some r =>
      rw [hrec] at h
      injection h with h
      subst h
      obtain ⟨k3, hk3⟩ := ih k r hrec
      exact ⟨k3, List.mem_cons_of_mem _ hk3⟩
    | none =>
      rw [hrec] at h
      split_ifs at h with hk
      injection h with h
      subst h
      exact ⟨k2, List.mem_cons_self _ _⟩

/-- The flattened value looked up for a column is a scalar. -/
theorem lookupLast_flatten_scalar (record : RecordData) (ml : Nat) (col : String)
    (v : Value) (h : lookupLast (flatten_record record ml) col = some v) :
    isScalar v = true := by
  obtain ⟨k2, hmem⟩ := lookupLast_mem _ _ _ h
  exact flattenAux_scalars "" 0 ml record (k2, v) hmem

/-! ### Emitted fields are neutral and newline-free -/

/-- The JSON encoding of a scalar is a neutral field. -/
theorem jsonDumps_scalar_neutral : ∀ v, isScalar v = true → neutralField (jsonDumps v) := by
  intro v hv
  cases v with
  | vNull =>
    simp only [jsonDumps]
    rfl
  | vBool b =>
    cases b <;> simp only [jsonDumps] <;> rfl
  | vInt i =>
    simp only [jsonDumps]
    apply scanField_no_special
    intro x hx
    rcases intChars_tame i x hx with rfl | ⟨h1, h2⟩
    · exact ⟨by decide, by decide⟩
    · have hc1 : ','.toNat = 44 := rfl
      have hc2 : '"'.toNat = 34 := rfl
      exact ⟨char_ne_of_toNat_ne (by omega), char_ne_of_toNat_ne (by omega)⟩
  | vStr s =>
    simp only [jsonDumps]
    show scanField false false ('"' :: (escapeChars s.data ++ ['"'])) = some (false, false)
    rw [show scanField false false ('"' :: (escapeChars s.data ++ ['"']))
        = scanField true false (escapeChars s.data ++ ['"']) by simp [scanField]]
    rw [scanField_inQuote_escapeChars]
    rfl
  | vArr xs => simp [isScalar] at hv
  | vObj fs => simp [isScalar] at hv

/-- Every field emitted by the encoder is a neutral field. -/
theorem csvField_neutral (record : RecordData) (ml : Nat) (col : String) :
    neutralField (csvField (flatten_record record ml) col).data := by
  cases hl : lookupLast (flatten_record record ml) col with
  | none =>
    simp only [csvField, hl]
    rfl
  | some v =>
    simp only [csvField, hl]
    by_cases hemit : (pyEqZero v || pyTruthy v) = true
    · rw [if_pos hemit]
      exact jsonDumps_scalar_neutral v (lookupLast_flatten_scalar record ml col v hl)
    · rw [if_neg hemit]
      rfl

/-- The JSON encoding of a scalar contains no newline. -/
theorem jsonDumps_scalar_no_newline :
    ∀ v, isScalar v = true → '\n' ∉ jsonDumps v := by
  intro v hv hmem
  cases v with
  | vNull =>
    simp only [jsonDumps] at hmem
    revert hmem
    decide
  | vBool b =>
    cases b <;> simp only [jsonDumps] at hmem <;> revert hmem <;> decide
  | vInt i =>
    simp only [jsonDumps] at hmem
    rcases intChars_tame i _ hmem with h | ⟨h1, h2⟩
    · exact absurd h (by decide)
    · exact absurd h1 (by decide)
  | vStr s =>
    simp only [jsonDumps] at hmem
    rcases List.mem_cons.mp hmem with h | h
    · exact absurd h (by decide)
    · rcases List.mem_append.mp h with h | h
      · obtain ⟨c, -, hc⟩ := escapeChars_mem _ _ h
        exact escapeChar_no_newline c _ hc rfl
      · rcases List.mem_singleton.mp h with h
        exact absurd h (by decide)
  | vArr xs => simp [isScalar] at hv
  | vObj fs => simp [isScalar] at hv

/-- Every field emitted by the encoder is newline-free. -/
theorem csvField_no_newline (record : RecordData) (ml : Nat) (col : String) :
    '\n' ∉ (csvField (flatten_record record ml) col).data := by
  cases hl : lookupLast (flatten_record record ml) col with
  | none =>
    simp only [csvField, hl]
    decide
  | some v =>
    simp only [csvField, hl]
    by_cases hemit : (pyEqZero v || pyTruthy v) = true
    · rw [if_pos hemit]
      exact jsonDumps_scalar_no_newline v (lookupLast_flatten_scalar record ml col v hl)
    · rw [if_neg hemit]
      decide

/-- The characters of a joined string come from the separator or a part. -/
theorem joinWith_data :
    ∀ (sep : String) (l : List String),
      (joinWith sep l).data = joinChars sep.data (l.map (·.data)) := by
  intro sep l
  induction l with
  | nil => rfl
  | cons x rest ih =>
    cases rest with
    | nil => rfl
    | cons y rest2 =>
      show (x ++ sep ++ joinWith sep (y :: rest2)).data = _
      rw [String.data_append, String.data_append, ih]
      rfl

/-- The characters of the CSV line, as a comma-join of the emitted fields. -/
theorem record_to_csv_line_data (record : RecordData) (schema : List String) (ml : Nat) :
    (record_to_csv_line record schema ml).data
      = joinChars [',']
          ((schema.map (csvField (flatten_record record ml))).map (·.data)) := by
  unfold record_to_csv_line
  rw [joinWith_data]

/-- C9: the line returned by `record_to_csv_line` contains no newline
character — string values containing newlines or other control characters are
escaped by the JSON scalar encoding — so each record occupies exactly one
physical line of the output file. -/
theorem record_to_csv_line_no_newline (record : RecordData) (schema : List String)
    (ml : Nat) : '\n' ∉ (record_to_csv_line record schema ml).data := by
  rw [record_to_csv_line_data]
  intro hmem
  rcases joinChars_mem _ _ _ hmem with h | ⟨f, hf, hxf⟩
  · revert h
    decide
  · rw [List.map_map] at hf
    obtain ⟨col, -, rfl⟩ := List.mem_map.mp hf
    exact csvField_no_newline record ml col hxf

/-! ### Splitting a row back into fields -/

/-- Scanning a neutral chunk at the head of the input lets the splitter pass
over it, accumulating its characters into the current field. -/
theorem splitFieldsAux_neutral_append :
    ∀ (f : List Char) (inQ esc : Bool) (cur rest : List Char),
      scanField inQ esc f = some (false, false) →
      splitFieldsAux inQ esc cur (f ++ rest)
        = splitFieldsAux false false (f.reverse ++ cur) rest := by
  intro f
  induction f with
  | nil =>
    intro inQ esc cur rest h
    simp only [scanField, Option.some.injEq, Prod.mk.injEq] at h
    obtain ⟨h1, h2⟩ := h
    subst h1
    subst h2
    simp
  | cons c f2 ih =>
    intro inQ esc cur rest h
    match inQ, esc with
    | true, true =>
      simp only [scanField] at h
      simp only [List.cons_append, splitFieldsAux, List.append_eq]
      rw [ih true false (c :: cur) rest h]
      simp
    | true, false =>
      by_cases h1 : c = '\\'
      · simp only [scanField, if_pos h1] at h
        simp only [List.cons_append, splitFieldsAux, List.append_eq, if_pos h1]
        rw [ih true true (c :: cur) rest h]
        simp
      · by_cases h2 : c = '"'
        · simp only [scanField, if_neg h1, if_pos h2] at h
          simp only [List.cons_append, splitFieldsAux, List.append_eq, if_neg h1, if_pos h2]
          rw [ih false false (c :: cur) rest h]
          simp
        · simp only [scanField, if_neg h1, if_neg h2] at h
          simp only [List.cons_append, splitFieldsAux, List.append_eq, if_neg h1, if_neg h2]
          rw [ih true false (c :: cur) rest h]
          simp
    | false, esc =>
      by_cases h1 : c = ','
      · simp only [scanField, if_pos h1] at h
        exact Option.noConfusion h
      · by_cases h2 : c = '"'
        · simp only [scanField, if_neg h1, if_pos h2] at h
          simp only [List.cons_append, splitFieldsAux, List.append_eq, if_neg h1, if_pos h2]
          rw [ih true false (c :: cur) rest h]
          simp
        · simp only [scanField, if_neg h1, if_neg h2] at h
          simp only [List.cons_append, splitFieldsAux, List.append_eq, if_neg h1, if_neg h2]
          rw [ih false false (c :: cur) rest h]
          simp

/-- The splitter recovers exactly the joined fields when each is neutral. -/
theorem splitFieldsAux_join :
    ∀ (fields : List (List Char)), fields ≠ [] → (∀ f ∈ fields, neutralField f) →
      splitFieldsAux false false [] (joinChars [','] fields) = fields := by
  intro fields
  induction fields with
  | nil =>
    intro h
    exact absurd rfl h
  | cons f rest ih =>
    intro _ hneu
    cases rest with
    | nil =>
      show splitFieldsAux false false [] (joinChars [','] [f]) = [f]
      have hf := hneu f (List.mem_cons_self _ _)
      calc splitFieldsAux false false [] (joinChars [','] [f])
          = splitFieldsAux false false [] (f ++ []) := by simp [joinChars]
        _ = splitFieldsAux false false (f.reverse ++ []) [] :=
            splitFieldsAux_neutral_append f false false [] [] hf
        _ = [f] := by simp [splitFieldsAux]
    | cons g rest2 =>
      have hf := hneu f (List.mem_cons_self _ _)
      have hjoin : joinChars [','] (f :: g :: rest2)
          = f ++ (',' :: joinChars [','] (g :: rest2)) := by
        simp [joinChars]
      rw [hjoin, splitFieldsAux_neutral_append f false false [] _ hf]
      have hstep : splitFieldsAux false false (f.reverse ++ [])
            (',' :: joinChars [','] (g :: rest2))
          = (f.reverse ++ []).reverse
            :: splitFieldsAux false false [] (joinChars [','] (g :: rest2)) := by
        simp [splitFieldsAux]
      rw [hstep, ih (by simp) (fun x hx => hneu x (List.mem_cons_of_mem _ hx))]
      simp

/-! ### Rows of the written file -/

/-- Character content of the newline-terminated concatenation. -/
theorem fileLinesContent_data :
    ∀ ls : List String,
      (fileLinesContent ls).data
        = match ls with
          | [] => []
          | l :: rest => l.data ++ '\n' :: (fileLinesContent rest).data := by
  intro ls
  cases ls with
  | nil => rfl
  | cons l rest =>
    show (l ++ "\n" ++ fileLinesContent rest).data = _
    rw [String.data_append, String.data_append]
    simp

/-- A separator-free chunk at the head of the input is accumulated whole. -/
theorem splitCharAux_no_sep :
    ∀ (l : List Char) (sep : Char) (cur rest : List Char), (∀ x ∈ l, x ≠ sep) →
      splitCharAux sep cur (l ++ rest) = splitCharAux sep (l.reverse ++ cur) rest := by
  intro l
  induction l with
  | nil =>
    intro sep cur rest _
    simp
  | cons c l2 ih =>
    intro sep cur rest h
    have hc : c ≠ sep := h c (List.mem_cons_self _ _)
    simp only [List.cons_append, splitCharAux, List.append_eq, if_neg hc]
    rw [ih sep (c :: cur) rest (fun x hx => h x (List.mem_cons_of_mem _ hx))]
    simp

/-- Splitting the written content at newlines yields one piece per line plus
the empty piece after the final newline, provided no line contains a
newline. -/
theorem splitCharAux_lines :
    ∀ ls : List String, (∀ l ∈ ls, '\n' ∉ l.data) →
      splitCharAux '\n' [] (fileLinesContent ls).data = ls.map (·.data) ++ [[]] := by
  intro ls
  induction ls with
  | nil =>
    intro _
    rfl
  | cons l rest ih =>
    intro h
    rw [fileLinesContent_data]
    have hl := h l (List.mem_cons_self _ _)
    rw [splitCharAux_no_sep l.data '\n' [] _ (fun x hx hxe => hl (hxe ▸ hx))]
    have hstep : splitCharAux '\n' (l.data.reverse ++ []) ('\n' :: (fileLinesContent rest).data)
        = (l.data.reverse ++ []).reverse :: splitCharAux '\n' [] (fileLinesContent rest).data := by
      simp [splitCharAux]
    rw [hstep, ih (fun x hx => h x (List.mem_cons_of_mem _ hx))]
    simp

/-- The text rows of the written file are exactly the per-record CSV lines. -/
theorem textRows_write (records : Batch) (schema : List String) (ml : Nat) :
    textRows (write_records_to_file records schema ml)
      = records.map (fun kv => record_to_csv_line kv.2 schema ml) := by
  unfold textRows write_records_to_file
  rw [splitCharAux_lines _ (by
    intro l hl
    obtain ⟨kv, -, rfl⟩ := List.mem_map.mp hl
    exact record_to_csv_line_no_newline kv.2 schema ml)]
  rw [List.map_append]
  simp only [List.map_cons, List.map_nil]
  rw [List.dropLast_concat, List.map_map, List.map_map]
  apply List.map_congr_left
  intro kv _
  rfl

/-- C1: encoding a batch produces exactly one text row per record, and under
the delimiter/quoting convention every row splits into exactly
`schema.length` fields; `records_to_file` (without compression) writes
exactly this content to the newly created file. -/
theorem records_to_file_row_and_field_counts (gz : String → String) (fs : FileSystem)
    (records : Batch) (schema : List String) (suf pre : String)
    (dest_dir : Option String) (ml : Nat) (hs : schema ≠ []) :
    ∃ path,
      records_to_file gz fs records schema suf pre false dest_dir ml
        = (fs ++ [(path, write_records_to_file records schema ml)], path) ∧
      (textRows (write_records_to_file records schema ml)).length = records.length ∧
      ∀ row ∈ textRows (write_records_to_file records schema ml),
        (splitFields row).length = schema.length := by
  refine ⟨mkstempPath fs (absoluteDir dest_dir) pre ("." ++ suf), rfl, ?_, ?_⟩
  · rw [textRows_write]
    simp
  · intro row hrow
    rw [textRows_write] at hrow
    obtain ⟨kv, -, rfl⟩ := List.mem_map.mp hrow
    unfold splitFields
    rw [record_to_csv_line_data]
    rw [splitFieldsAux_join _ (by simpa using hs) (by
      intro f hf
      rw [List.map_map] at hf
      obtain ⟨col, -, rfl⟩ := List.mem_map.mp hf
      exact csvField_neutral kv.2 ml col)]
    simp

/-- Witness for C1: a two-record batch over a two-column schema yields two
rows of two fields each. -/
theorem records_to_file_row_and_field_counts_witness :
    (["a", "b"] : List String) ≠ [] ∧
    ∃ path,
      records_to_file id []
          [("r1", [("a", Value.vInt 1)]), ("r2", [("b", Value.vStr "x,y")])]
          ["a", "b"] "csv" "batch_" false none 0
        = ([(path, write_records_to_file
              [("r1", [("a", Value.vInt 1)]), ("r2", [("b", Value.vStr "x,y")])]
              ["a", "b"] 0)], path) ∧
      (textRows (write_records_to_file
          [("r1", [("a", Value.vInt 1)]), ("r2", [("b", Value.vStr "x,y")])]
          ["a", "b"] 0)).length
        = ([("r1", [("a", Value.vInt 1)]), ("r2", [("b", Value.vStr "x,y")])] : Batch).length ∧
      ∀ row ∈ textRows (write_records_to_file
          [("r1", [("a", Value.vInt 1)]), ("r2", [("b", Value.vStr "x,y")])]
          ["a", "b"] 0),
        (splitFields row).length = (["a", "b"] : List String).length := by
  refine ⟨by decide, ?_⟩
  have h := records_to_file_row_and_field_counts id []
    [("r1", [("a", Value.vInt 1)]), ("r2", [("b", Value.vStr "x,y")])]
    ["a", "b"] "csv" "batch_" none 0 (by decide)
  obtain ⟨path, h1, h2, h3⟩ := h
  exact ⟨path, by simpa using h1, h2, h3⟩

/-! ### Decimal round-trip -/

/-- Equality of a built string with another is equality of the characters. -/
theorem string_mk_eq {l : List Char} {s : String} : (String.mk l = s) ↔ l = s.data := by
  cases s with
  | mk m =>
    constructor
    · intro h
      injection h
    · intro h
      rw [h]

/-- The decimal parser distributes over concatenation. -/
theorem parseNatAux_append :
    ∀ (l1 l2 : List Char) (acc : Nat),
      parseNatAux acc (l1 ++ l2) = (parseNatAux acc l1).bind (fun a => parseNatAux a l2) := by
  intro l1
  induction l1 with
  | nil =>
    intro l2 acc
    simp [parseNatAux]
  | cons c rest ih =>
    intro l2 acc
    cases hd : digitVal c <;> simp [parseNatAux, hd, ih]

/-- A rendered decimal digit parses back to its value. -/
theorem digitVal_digitChar : ∀ k, k < 10 → digitVal (Char.ofNat (48 + k)) = some k := by
  intro k hk
  interval_cases k <;> decide

/-- The accumulating parser inverts the digit renderer. -/
theorem parseNatAux_natCharsAux :
    ∀ n f acc, n ≤ f →
      parseNatAux acc (natCharsAux f n)
        = some (acc * 10 ^ (natCharsAux f n).length + n) := by
  intro n
  induction n using Nat.strong_induction_on with
  | _ n ih =>
    intro f acc hnf
    cases f with
    | zero =>
      interval_cases n
      simp [natCharsAux, parseNatAux]
    | succ f2 =>
      by_cases h0 : n = 0
      · subst h0
        simp [natCharsAux, parseNatAux]
      · rw [show natCharsAux (f2 + 1) n
            = natCharsAux f2 (n / 10) ++ [Char.ofNat (48 + n % 10)] by
          simp [natCharsAux, h0]]
        rw [parseNatAux_append]
        have hdiv : n / 10 < n := Nat.div_lt_self (Nat.pos_of_ne_zero h0) (by norm_num)
        have hdivf : n / 10 ≤ f2 := by omega
        rw [ih (n / 10) hdiv f2 acc hdivf]
        have hd : digitVal (Char.ofNat (48 + n % 10)) = some (n % 10) :=
          digitVal_digitChar _ (Nat.mod_lt _ (by norm_num))
        simp only [Option.some_bind, Option.bind_some, parseNatAux, hd, List.length_append,
          List.length_cons, List.length_nil, Nat.zero_add]
        rw [pow_succ, ← mul_assoc]
        generalize acc * 10 ^ (natCharsAux f2 (n / 10)).length = A
        exact congrArg some (by omega)

/-- The decimal rendering of a natural number is never empty. -/
theorem natChars_ne_nil : ∀ n, natChars n ≠ [] := by
  intro n
  unfold natChars
  by_cases h0 : n = 0
  · simp [h0]
  · rw [if_neg h0]
    cases n with
    | zero => exact absurd rfl h0
    | succ m => simp [natCharsAux]

/-- Round-trip: parsing a rendered natural number. -/
theorem parseNatChars_natChars : ∀ n, parseNatChars (natChars n) = some n := by
  intro n
  by_cases h0 : n = 0
  · subst h0
    decide
  · unfold parseNatChars natChars
    rw [if_neg h0, if_neg (by
      cases n with
      | zero => exact absurd rfl h0
      | succ m => simp [natCharsAux])]
    have h := parseNatAux_natCharsAux n n 0 (le_refl n)
    simpa using h

/-- Round-trip: parsing a rendered integer. -/
theorem parseIntChars_intChars : ∀ i, parseIntChars (intChars i) = some i := by
  intro i
  unfold intChars
  by_cases hneg : i < 0
  · rw [if_pos hneg]
    show parseIntChars ('-' :: natChars i.natAbs) = some i
    simp only [parseIntChars, if_pos rfl]
    rw [show parseNatChars (natChars i.natAbs) = some i.natAbs from parseNatChars_natChars _]
    have hval : -((i.natAbs : Nat) : Int) = i := by omega
    exact Eq.trans rfl (congrArg some hval)
  · rw [if_neg hneg]
    obtain ⟨c, rest, hcr⟩ : ∃ c rest, natChars i.natAbs = c :: rest := by
      cases hnc : natChars i.natAbs with
      | nil => exact absurd hnc (natChars_ne_nil _)
      | cons c rest => exact ⟨c, rest, rfl⟩
    have hc := natChars_digits i.natAbs c (by rw [hcr]; exact List.mem_cons_self _ _)
    have hcne : c ≠ '-' := char_ne_of_toNat_ne (by
      have h45 : ('-').toNat = 45 := rfl
      omega)
    rw [hcr]
    simp only [parseIntChars, if_neg hcne]
    rw [← hcr, parseNatChars_natChars]
    have hval : ((i.natAbs : Nat) : Int) = i := by omega
    exact Eq.trans rfl (congrArg some hval)

/-! ### Unescaping round-trip -/

/-- A rendered hexadecimal digit parses back to its value. -/
theorem hexVal_hexDigitChar : ∀ k, k < 16 → hexVal (hexDigitChar k) = some k := by
  intro k hk
  interval_cases k <;> decide

/-- Unescaping inverts the escaping of one character. -/
theorem unescape_escapeChar :
    ∀ (c : Char) (rest : List Char),
      unescape (escapeChar c ++ rest) = (unescape rest).map (fun l => c :: l) := by
  intro c rest
  unfold escapeChar
  split_ifs with h1 h2 h3 h4 h5 h6 h7 h8
  · subst h1
    rw [show ['\\', '\\'] ++ rest = '\\' :: '\\' :: rest from rfl, unescape.eq_def]
    simp [simpleUnescChar]
  · subst h2
    rw [show ['\\', '"'] ++ rest = '\\' :: '"' :: rest from rfl, unescape.eq_def]
    simp [simpleUnescChar]
  · subst h3
    rw [show ['\\', 'n'] ++ rest = '\\' :: 'n' :: rest from rfl, unescape.eq_def]
    simp [simpleUnescChar]
  · subst h4
    rw [show ['\\', 'r'] ++ rest = '\\' :: 'r' :: rest from rfl, unescape.eq_def]
    simp [simpleUnescChar]
  · subst h5
    rw [show ['\\', 't'] ++ rest = '\\' :: 't' :: rest from rfl, unescape.eq_def]
    simp [simpleUnescChar]
  · subst h6
    rw [show ['\\', 'b'] ++ rest = '\\' :: 'b' :: rest from rfl, unescape.eq_def]
    simp [simpleUnescChar]
  · subst h7
    rw [show ['\\', 'f'] ++ rest = '\\' :: 'f' :: rest from rfl, unescape.eq_def]
    simp [simpleUnescChar]
  · have e0 : hexVal '0' = some 0 := by decide
    have e2 : hexVal (hexDigitChar (c.toNat / 16)) = some (c.toNat / 16) :=
      hexVal_hexDigitChar _ (by omega)
    have e3 : hexVal (hexDigitChar (c.toNat % 16)) = some (c.toNat % 16) :=
      hexVal_hexDigitChar _ (Nat.mod_lt _ (by norm_num))
    have hc1 : Char.ofNat (((0 * 16 + 0) * 16 + c.toNat / 16) * 16 + c.toNat % 16) = c := by
      rw [show ((0 * 16 + 0) * 16 + c.toNat / 16) * 16 + c.toNat % 16 = c.toNat by omega,
        Char.ofNat_toNat]
    have hc2 : Char.ofNat (c.toNat / 16 * 16 + c.toNat % 16) = c := by
      rw [show c.toNat / 16 * 16 + c.toNat % 16 = c.toNat by omega, Char.ofNat_toNat]
    rw [show ['\\', 'u', '0', '0', hexDigitChar (c.toNat / 16), hexDigitChar (c.toNat % 16)] ++ rest
        = '\\' :: 'u' :: '0' :: '0' :: hexDigitChar (c.toNat / 16)
          :: hexDigitChar (c.toNat % 16) :: rest from rfl, unescape.eq_def]
    simp [e0, e2, e3, hc1, hc2]
  · rw [show [c] ++ rest = c :: rest from rfl, unescape.eq_def]
    simp [h1, h2]

/-- Unescaping inverts the escaping of string content. -/
theorem unescape_escapeChars :
    ∀ l : List Char, unescape (escapeChars l) = some l := by
  intro l
  induction l with
  | nil => rfl
  | cons c cs ih =>
    show unescape (escapeChar c ++ escapeChars cs) = _
    rw [unescape_escapeChar, ih]
    rfl

/-! ### Decoding an emitted field -/

/-- Reading back the JSON encoding of any scalar recovers the scalar. -/
theorem decodeField_jsonDumps : ∀ v, isScalar v = true → decodeField ⟨jsonDumps v⟩ = some v := by
  intro v hv
  cases v with
  | vNull =>
    simp only [jsonDumps]
    rfl
  | vBool b =>
    cases b <;> simp only [jsonDumps] <;> rfl
  | vInt i =>
    simp only [jsonDumps]
    have hrt := parseIntChars_intChars i
    have hnonnil : intChars i ≠ [] := by
      unfold intChars
      by_cases hneg : i < 0
      · rw [if_pos hneg]
        simp
      · rw [if_neg hneg]
        exact natChars_ne_nil _
    have hq : listIsPre ['"'] (intChars i) = false := by
      unfold intChars
      by_cases hneg : i < 0
      · rw [if_pos hneg]
        simp [listIsPre]
      · rw [if_neg hneg]
        obtain ⟨c, rest, hcr⟩ : ∃ c rest, natChars i.natAbs = c :: rest := by
          cases hnc : natChars i.natAbs with
          | nil => exact absurd hnc (natChars_ne_nil _)
          | cons c rest => exact ⟨c, rest, rfl⟩
        have hcd := natChars_digits i.natAbs c (by rw [hcr]; exact List.mem_cons_self _ _)
        have hcq : ('"') ≠ c := fun h => by
          rw [← h] at hcd
          revert hcd
          decide
        rw [hcr]
        simp [listIsPre, hcq]
    have hne0 : (String.mk (intChars i)) ≠ "" := by
      rw [ne_eq, string_mk_eq]
      intro h
      exact hnonnil (by simpa using h)
    have hne1 : (String.mk (intChars i)) ≠ "null" := by
      rw [ne_eq, string_mk_eq]
      intro h
      rw [h] at hrt
      exact Option.noConfusion ((show parseIntChars "null".data = none from rfl) ▸ hrt)
    have hne2 : (String.mk (intChars i)) ≠ "true" := by
      rw [ne_eq, string_mk_eq]
      intro h
      rw [h] at hrt
      exact Option.noConfusion ((show parseIntChars "true".data = none from rfl) ▸ hrt)
    have hne3 : (String.mk (intChars i)) ≠ "false" := by
      rw [ne_eq, string_mk_eq]
      intro h
      rw [h] at hrt
      exact Option.noConfusion ((show parseIntChars "false".data = none from rfl) ▸ hrt)
    have hq2 : ¬ (listIsPre ['"'] (String.mk (intChars i)).data = true) := by
      rw [show (String.mk (intChars i)).data = intChars i from rfl, hq]
      simp
    unfold decodeField
    rw [if_neg hne0, if_neg hne1, if_neg hne2, if_neg hne3, if_neg hq2]
    rw [show (String.mk (intChars i)).data = intChars i from rfl, hrt]
    rfl
  | vStr s =>
    simp only [jsonDumps]
    have hne0 : (String.mk ('"' :: (escapeChars s.data ++ ['"']))) ≠ "" := by
      rw [ne_eq, string_mk_eq]
      intro h
      exact List.noConfusion h
    have hne1 : (String.mk ('"' :: (escapeChars s.data ++ ['"']))) ≠ "null" := by
      rw [ne_eq, string_mk_eq]
      rw [show "null".data = 'n' :: "ull".data from rfl]
      intro h
      injection h with h1 _
      exact absurd h1 (by decide)
    have hne2 : (String.mk ('"' :: (escapeChars s.data ++ ['"']))) ≠ "true" := by
      rw [ne_eq, string_mk_eq]
      rw [show "true".data = 't' :: "rue".data from rfl]
      intro h
      injection h with h1 _
      exact absurd h1 (by decide)
    have hne3 : (String.mk ('"' :: (escapeChars s.data ++ ['"']))) ≠ "false" := by
      rw [ne_eq, string_mk_eq]
      rw [show "false".data = 'f' :: "alse".data from rfl]
      intro h
      injection h with h1 _
      exact absurd h1 (by decide)
    have hpos : listIsPre ['"'] (String.mk ('"' :: (escapeChars s.data ++ ['"']))).data = true := by
      rw [show (String.mk ('"' :: (escapeChars s.data ++ ['"']))).data
          = '"' :: (escapeChars s.data ++ ['"']) from rfl]
      simp [listIsPre]
    unfold decodeField
    rw [if_neg hne0, if_neg hne1, if_neg hne2, if_neg hne3, if_pos hpos]
    rw [show (String.mk ('"' :: (escapeChars s.data ++ ['"']))).data
        = '"' :: (escapeChars s.data ++ ['"']) from rfl]
    rw [show ('"' :: (escapeChars s.data ++ ['"'])).drop 1 = escapeChars s.data ++ ['"'] from rfl]
    rw [List.dropLast_concat, unescape_escapeChars]
    rfl
  | vArr xs => simp [isScalar] at hv
  | vObj fs => simp [isScalar] at hv

/-- The fields read back from a CSV line are the per-column emitted fields. -/
theorem splitFields_record_line (record : RecordData) (schema : List String) (ml : Nat)
    (hs : schema ≠ []) :
    splitFields (record_to_csv_line record schema ml)
      = schema.map (csvField (flatten_record record ml)) := by
  unfold splitFields
  rw [record_to_csv_line_data]
  rw [splitFieldsAux_join _ (by simpa using hs) (by
    intro f hf
    rw [List.map_map] at hf
    obtain ⟨col, -, rfl⟩ := List.mem_map.mp hf
    exact csvField_neutral record ml col)]
  rw [List.map_map]
  rw [show ((fun l => (⟨l⟩ : String)) ∘ fun x : String => x.data) = id from funext fun s => rfl]
  exact List.map_id _

/-- C2: for every column of the schema, `record_to_csv_line` emits the
canonical scalar encoding of the flattened value when the emission filter
holds (in particular for `0` and `false`), and an empty field when the key is
missing or bound to `None`; reading the row back under the same
delimiter/quoting convention yields exactly the per-column fields, each
emitted field decodes to the same scalar, and the empty field decodes to
"no value". -/
theorem encode_field_roundtrip (record : RecordData) (schema : List String) (ml : Nat)
    (hs : schema ≠ []) :
    splitFields (record_to_csv_line record schema ml)
      = schema.map (csvField (flatten_record record ml)) ∧
    (∀ col v, lookupLast (flatten_record record ml) col = some v →
        (pyEqZero v || pyTruthy v) = true →
        csvField (flatten_record record ml) col = ⟨jsonDumps v⟩ ∧
        decodeField (csvField (flatten_record record ml) col) = some v) ∧
    (∀ col, lookupLast (flatten_record record ml) col = none ∨
        lookupLast (flatten_record record ml) col = some Value.vNull →
        csvField (flatten_record record ml) col = "") ∧
    decodeField "" = none := by
  refine ⟨splitFields_record_line record schema ml hs, ?_, ?_, rfl⟩
  · intro col v hl hemit
    have hfield : csvField (flatten_record record ml) col = ⟨jsonDumps v⟩ := by
      simp only [csvField, hl, if_pos hemit]
    refine ⟨hfield, ?_⟩
    rw [hfield]
    exact decodeField_jsonDumps v (lookupLast_flatten_scalar record ml col v hl)
  · intro col hcase
    rcases hcase with hl | hl
    · simp [csvField, hl]
    · simp [csvField, hl, pyEqZero, pyTruthy]

/-- Witness for C2 on a concrete record: the value `0` is bound to column
`a`, `None` to column `b`, and column `c` is absent. -/
theorem encode_field_roundtrip_witness :
    (["a", "b", "c"] : List String) ≠ [] ∧
    (splitFields (record_to_csv_line [("a", Value.vInt 0), ("b", Value.vNull)] ["a", "b", "c"] 0)
      = (["a", "b", "c"] : List String).map
          (csvField (flatten_record [("a", Value.vInt 0), ("b", Value.vNull)] 0)) ∧
    (∀ col v,
        lookupLast (flatten_record [("a", Value.vInt 0), ("b", Value.vNull)] 0) col = some v →
        (pyEqZero v || pyTruthy v) = true →
        csvField (flatten_record [("a", Value.vInt 0), ("b", Value.vNull)] 0) col
          = ⟨jsonDumps v⟩ ∧
        decodeField (csvField (flatten_record [("a", Value.vInt 0), ("b", Value.vNull)] 0) col)
          = some v) ∧
    (∀ col,
        lookupLast (flatten_record [("a", Value.vInt 0), ("b", Value.vNull)] 0) col = none ∨
        lookupLast (flatten_record [("a", Value.vInt 0), ("b", Value.vNull)] 0) col
          = some Value.vNull →
        csvField (flatten_record [("a", Value.vInt 0), ("b", Value.vNull)] 0) col = "") ∧
    decodeField "" = none) :=
  ⟨by decide, encode_field_roundtrip [("a", Value.vInt 0), ("b", Value.vNull)] ["a", "b", "c"] 0
    (by decide)⟩

/-! ### Fresh temporary files -/

/-- The characters of a built string. -/
theorem data_mk (l : List Char) : (String.mk l).data = l := rfl

/-- Decimal renderings are injective (they parse back). -/
theorem natChars_inj : ∀ n m, natChars n = natChars m → n = m := by
  intro n m h
  have h1 := parseNatChars_natChars n
  have h2 := parseNatChars_natChars m
  rw [h] at h1
  rw [h1] at h2
  injection h2

/-- Candidate temporary names with different numbers differ. -/
theorem tmpName_inj (dir pre suf : String) :
    Function.Injective (tmpName dir pre suf) := by
  intro k m h
  unfold tmpName at h
  have hd := congrArg String.data h
  simp only [String.data_append, natStr, data_mk] at hd
  exact natChars_inj _ _ (List.append_cancel_left (List.append_cancel_right hd))

/-- Pigeonhole: more distinct candidates than existing paths leaves a fresh
candidate. -/
theorem exists_fresh (cands paths : List String) (hnd : cands.Nodup)
    (hlen : paths.length < cands.length) : ∃ c ∈ cands, c ∉ paths := by
  by_contra h
  push_neg at h
  have hcard1 : cands.toFinset.card = cands.length := List.toFinset_card_of_nodup hnd
  have hsub : cands.toFinset ⊆ paths.toFinset := by
    intro x hx
    rw [List.mem_toFinset] at hx ⊢
    exact h x hx
  have hcard2 : cands.toFinset.card ≤ paths.toFinset.card := Finset.card_le_card hsub
  have hcard3 : paths.toFinset.card ≤ paths.length := paths.toFinset_card_le
  omega

/-- `findFresh` returns the first fresh candidate when one exists. -/
theorem findFresh_fresh :
    ∀ (cands paths : List String), (∃ c ∈ cands, c ∉ paths) →
      ∃ r, findFresh paths cands = some r ∧ r ∉ paths ∧ r ∈ cands := by
  intro cands
  induction cands with
  | nil =>
    rintro paths ⟨c, hc, -⟩
    exact absurd hc (List.not_mem_nil c)
  | cons c cs ih =>
    rintro paths ⟨d, hd, hdp⟩
    by_cases hc : c ∈ paths
    · have hex : ∃ e ∈ cs, e ∉ paths := by
        rcases List.mem_cons.mp hd with rfl | hdm
        · exact absurd hc hdp
        · exact ⟨d, hdm, hdp⟩
      obtain ⟨r, h1, h2, h3⟩ := ih paths hex
      refine ⟨r, ?_, h2, List.mem_cons_of_mem _ h3⟩
      simp only [findFresh, if_pos hc]
      exact h1
    · exact ⟨c, by simp [findFresh, hc], hc, List.mem_cons_self _ _⟩

/-- The allocated temporary path is fresh and is one of the candidates. -/
theorem mkstempPath_fresh (fs : FileSystem) (dir pre suf : String) :
    mkstempPath fs dir pre suf ∉ fs.map (·.1) ∧
    ∃ k, mkstempPath fs dir pre suf = tmpName dir pre suf k := by
  have hnd : ((List.range (fs.length + 1)).map (tmpName dir pre suf)).Nodup :=
    (List.nodup_range _).map (tmpName_inj dir pre suf)
  have hlen : (fs.map (·.1)).length
      < ((List.range (fs.length + 1)).map (tmpName dir pre suf)).length := by
    simp
  obtain ⟨c, hc, hcp⟩ := exists_fresh _ _ hnd hlen
  obtain ⟨r, h1, h2, h3⟩ := findFresh_fresh _ _ ⟨c, hc, hcp⟩
  unfold mkstempPath
  rw [h1]
  refine ⟨h2, ?_⟩
  obtain ⟨k, -, hk⟩ := List.mem_map.mp h3
  exact ⟨k, hk.symm⟩

/-- Prefixes extend along concatenation. -/
theorem listIsPre_append_of :
    ∀ (p l r : List Char), listIsPre p l = true → listIsPre p (l ++ r) = true := by
  intro p
  induction p with
  | nil =>
    intro l r _
    rfl
  | cons a as ih =>
    intro l r h
    cases l with
    | nil => exact absurd h (by simp [listIsPre])
    | cons b bs =>
      simp only [listIsPre, Bool.and_eq_true, beq_iff_eq] at h
      simp only [List.cons_append, listIsPre, Bool.and_eq_true, beq_iff_eq]
      exact ⟨h.1, ih bs r h.2⟩

/-- The directory chosen for the temporary file is always absolute. -/
theorem absoluteDir_absolute : ∀ d, isAbsolutePath (absoluteDir d) = true := by
  intro d
  cases d with
  | none => decide
  | some s =>
    simp only [absoluteDir, isAbsolutePath]
    by_cases h : listIsPre "/".data s.data = true
    · rw [if_pos h]
      exact h
    · rw [if_neg h, String.data_append]
      exact listIsPre_append_of _ _ _ (by decide)

/-- A temporary name in an absolute directory is an absolute path. -/
theorem tmpName_absolute (dir pre suf : String) (k : Nat)
    (h : isAbsolutePath dir = true) :
    isAbsolutePath (tmpName dir pre suf k) = true := by
  unfold tmpName isAbsolutePath
  simp only [String.data_append]
  rw [List.append_assoc, List.append_assoc, List.append_assoc]
  exact listIsPre_append_of _ _ _ h

/-- C8: a single call to `records_to_file` creates exactly one new file —
the store grows by exactly the one (fresh-pathed) entry — and the returned
value is the absolute path of that file. -/
theorem records_to_file_creates_one_file (gz : String → String) (fs : FileSystem)
    (records : Batch) (schema : List String) (suffix pre : String) (compression : Bool)
    (dest_dir : Option String) (ml : Nat) :
    ∃ path content,
      records_to_file gz fs records schema suffix pre compression dest_dir ml
        = (fs ++ [(path, content)], path) ∧
      path ∉ fs.map (·.1) ∧
      isAbsolutePath path = true := by
  refine ⟨mkstempPath fs (absoluteDir dest_dir) pre
    (if compression then "." ++ suffix ++ ".gz" else "." ++ suffix), _, rfl, ?_, ?_⟩
  · exact (mkstempPath_fresh fs _ pre _).1
  · obtain ⟨k, hk⟩ := (mkstempPath_fresh fs (absoluteDir dest_dir) pre
      (if compression then "." ++ suffix ++ ".gz" else "." ++ suffix)).2
    rw [hk]
    exact tmpName_absolute _ pre _ k (absoluteDir_absolute dest_dir)

/-! ### Substring occurrence counting -/

/-- Every list is a prefix of itself. -/
theorem listIsPre_refl : ∀ l : List Char, listIsPre l l = true := by
  intro l
  induction l with
  | nil => rfl
  | cons c rest ih => simp [listIsPre, ih]

/-- A prefix is no longer than the list. -/
theorem listIsPre_length : ∀ p l : List Char, listIsPre p l = true → p.length ≤ l.length := by
  intro p
  induction p with
  | nil =>
    intro l _
    simp
  | cons a as ih =>
    intro l h
    cases l with
    | nil => exact absurd h (by simp [listIsPre])
    | cons b bs =>
      simp only [listIsPre, Bool.and_eq_true] at h
      have := ih bs h.2
      simp only [List.length_cons]
      omega

/-- Being a prefix is taking that many characters. -/
theorem listIsPre_take : ∀ p l : List Char, listIsPre p l = true ↔ l.take p.length = p := by
  intro p
  induction p with
  | nil =>
    intro l
    simp [listIsPre]
  | cons a as ih =>
    intro l
    cases l with
    | nil => simp [listIsPre]
    | cons b bs =>
      simp only [listIsPre, Bool.and_eq_true, beq_iff_eq, List.length_cons, List.take_succ_cons,
        List.cons.injEq]
      constructor
      · rintro ⟨rfl, h2⟩
        exact ⟨rfl, (ih bs).mp h2⟩
      · rintro ⟨rfl, h2⟩
        exact ⟨rfl, (ih bs).mpr h2⟩

/-- Prefix tests cancel a common prefix. -/
theorem listIsPre_cancel : ∀ x y z : List Char, listIsPre (x ++ y) (x ++ z) = listIsPre y z := by
  intro x y z
  induction x with
  | nil => rfl
  | cons a xs ih => simp [listIsPre, ih]

/-- A suffix of the tail is a suffix of the list. -/
theorem listIsSuf_cons : ∀ (p l : List Char) (c : Char),
    listIsSuf p l = true → listIsSuf p (c :: l) = true := by
  intro p l c h
  unfold listIsSuf at *
  rw [List.reverse_cons]
  exact listIsPre_append_of _ _ _ h

/-- Every list is a suffix of itself. -/
theorem listIsSuf_refl : ∀ l : List Char, listIsSuf l l = true := by
  intro l
  exact listIsPre_refl l.reverse

/-- A short prefix test ignores what comes after the first chunk. -/
theorem listIsPre_append_left (p c r : List Char) (h : p.length ≤ c.length) :
    listIsPre p (c ++ r) = listIsPre p c := by
  cases h1 : listIsPre p c with
  | true => exact listIsPre_append_of p c r h1
  | false =>
    cases h2 : listIsPre p (c ++ r) with
    | false => rfl
    | true =>
      exfalso
      rw [listIsPre_take] at h2
      rw [List.take_append_eq_append_take, Nat.sub_eq_zero_of_le h, List.take_zero,
        List.append_nil] at h2
      have h3 : listIsPre p c = true := (listIsPre_take p c).mpr h2
      rw [h1] at h3
      exact Bool.noConfusion h3

/-- A nonempty pattern does not occur in the empty list. -/
theorem countOcc_nil_zero (pat : List Char) (hne : pat ≠ []) : countOcc pat [] = 0 := by
  cases pat with
  | nil => exact absurd rfl hne
  | cons a as => simp [countOcc, listIsPre]

/-- With no occurrence crossing the boundary, occurrences in a concatenation
split into the occurrences of the two parts. -/
theorem countOcc_append (pat : List Char) (hne : pat ≠ []) :
    ∀ (a b : List Char),
      (∀ L1, L1 < pat.length → 1 ≤ L1 →
        listIsSuf (pat.take L1) a = false ∨ listIsPre (pat.drop L1) b = false) →
      countOcc pat (a ++ b) = countOcc pat a + countOcc pat b := by
  intro a
  induction a with
  | nil =>
    intro b _
    rw [List.nil_append, countOcc_nil_zero pat hne]
    omega
  | cons c a2 ih =>
    intro b hcross
    have hstep1 : countOcc pat (c :: (a2 ++ b))
        = (if listIsPre pat (c :: (a2 ++ b)) = true then 1 else 0) + countOcc pat (a2 ++ b) := rfl
    have hstep2 : countOcc pat (c :: a2)
        = (if listIsPre pat (c :: a2) = true then 1 else 0) + countOcc pat a2 := rfl
    rw [List.cons_append, hstep1, hstep2]
    have hsub : countOcc pat (a2 ++ b) = countOcc pat a2 + countOcc pat b := by
      apply ih
      intro L1 h1 h2
      rcases hcross L1 h1 h2 with h | h
      · left
        cases hs : listIsSuf (pat.take L1) a2 with
        | false => rfl
        | true =>
          have hmono := listIsSuf_cons _ _ c hs
          rw [h] at hmono
          exact Bool.noConfusion hmono
      · right
        exact h
    rw [hsub]
    by_cases hp2 : listIsPre pat (c :: a2) = true
    · have hp1 : listIsPre pat ((c :: a2) ++ b) = true := listIsPre_append_of _ _ _ hp2
      have hp1c : listIsPre pat (c :: (a2 ++ b)) = true := hp1
      rw [if_pos hp1c, if_pos hp2]
      omega
    · have hp2f : listIsPre pat (c :: a2) = false := by
        cases h : listIsPre pat (c :: a2)
        · rfl
        · exact absurd h hp2
      by_cases hlen : pat.length ≤ (c :: a2).length
      · have hp1 : listIsPre pat ((c :: a2) ++ b) = false := by
          rw [listIsPre_append_left pat (c :: a2) b hlen]
          exact hp2f
        have hp1c : listIsPre pat (c :: (a2 ++ b)) = false := hp1
        rw [if_neg (by simp [hp1c]), if_neg (by simp [hp2f])]
        omega
      · push_neg at hlen
        have hp1 : listIsPre pat ((c :: a2) ++ b) = false := by
          cases hp : listIsPre pat ((c :: a2) ++ b)
          · rfl
          · exfalso
            have htake0 : ((c :: a2) ++ b).take pat.length = pat := (listIsPre_take _ _).mp hp
            have hL1 : 1 ≤ (c :: a2).length := by simp
            have hL2 : (c :: a2).length < pat.length := hlen
            have htake : pat.take (c :: a2).length = c :: a2 := by
              rw [← htake0, List.take_take, min_eq_left (le_of_lt hL2), List.take_left]
            have hdrop : listIsPre (pat.drop (c :: a2).length) b = true := by
              have hsplit := List.take_append_drop (c :: a2).length pat
              rw [htake] at hsplit
              have hp2c := hp
              rw [← hsplit, listIsPre_cancel] at hp2c
              exact hp2c
            rcases hcross (c :: a2).length hL2 hL1 with h | h
            · rw [htake, listIsSuf_refl] at h
              exact Bool.noConfusion h
            · exact Bool.noConfusion (hdrop.symm.trans h)
        have hp1c : listIsPre pat (c :: (a2 ++ b)) = false := hp1
        rw [if_neg (by simp [hp1c]), if_neg (by simp [hp2f])]
        omega

/-- Splitting off a concrete left chunk: crossings are excluded by checking
that no proper prefix of the pattern is a suffix of the chunk. -/
theorem countOcc_append_leftChunk (pat : List Char) (hne : pat ≠ []) (c r : List Char)
    (hprem : ∀ L1, L1 < pat.length → 1 ≤ L1 → listIsSuf (pat.take L1) c = false) :
    countOcc pat (c ++ r) = countOcc pat c + countOcc pat r :=
  countOcc_append pat hne c r (fun L1 h1 h2 => Or.inl (hprem L1 h1 h2))

/-- A proper suffix of the pattern cannot begin a list whose head chunk
fails the decidable check. -/
theorem listIsPre_drop_chunk (pat c r : List Char) (L1 : Nat)
    (hprem : if (pat.drop L1).length ≤ c.length then listIsPre (pat.drop L1) c = false
       else listIsPre c (pat.drop L1) = false) :
    listIsPre (pat.drop L1) (c ++ r) = false := by
  by_cases hlen : (pat.drop L1).length ≤ c.length
  · rw [if_pos hlen] at hprem
    rw [listIsPre_append_left _ _ _ hlen]
    exact hprem
  · rw [if_neg hlen] at hprem
    push_neg at hlen
    cases hp : listIsPre (pat.drop L1) (c ++ r) with
    | false => rfl
    | true =>
      exfalso
      have htake0 : (c ++ r).take (pat.drop L1).length = pat.drop L1 :=
        (listIsPre_take _ _).mp hp
      have hcp : listIsPre c (pat.drop L1) = true := by
        rw [listIsPre_take]
        rw [← htake0, List.take_take, min_eq_left (le_of_lt hlen), List.take_left]
      rw [hprem] at hcp
      exact Bool.noConfusion hcp

/-- Splitting before a concrete chunk that heads the right-hand part. -/
theorem countOcc_append_rightChunk (pat : List Char) (hne : pat ≠ []) (a c r : List Char)
    (hprem : ∀ L1, L1 < pat.length → 1 ≤ L1 →
       (if (pat.drop L1).length ≤ c.length then listIsPre (pat.drop L1) c = false
        else listIsPre c (pat.drop L1) = false)) :
    countOcc pat (a ++ (c ++ r)) = countOcc pat a + countOcc pat (c ++ r) :=
  countOcc_append pat hne a (c ++ r)
    (fun L1 h1 h2 => Or.inr (listIsPre_drop_chunk pat c r L1 (hprem L1 h1 h2)))

/-- A pattern whose head character never occurs in the list never occurs. -/
theorem countOcc_zero_of_head (a : Char) (as : List Char) :
    ∀ l : List Char, (∀ x ∈ l, x ≠ a) → countOcc (a :: as) l = 0 := by
  intro l
  induction l with
  | nil =>
    intro _
    simp [countOcc, listIsPre]
  | cons c rest ih =>
    intro h
    have hc : c ≠ a := h c (List.mem_cons_self _ _)
    have hpre : listIsPre (a :: as) (c :: rest) = false := by
      have hbeq : (a == c) = false := by
        simp only [beq_eq_false_iff_ne, ne_eq]
        exact fun hh => hc hh.symm
      simp [listIsPre, hbeq]
    rw [show countOcc (a :: as) (c :: rest)
        = (if listIsPre (a :: as) (c :: rest) = true then 1 else 0)
          + countOcc (a :: as) rest from rfl]
    rw [if_neg (by simp [hpre]), ih (fun x hx => h x (List.mem_cons_of_mem _ hx))]

/-- Substring absence is a zero occurrence count. -/
theorem containsSub_false_iff (pat : List Char) :
    ∀ l, containsSub pat l = false ↔ countOcc pat l = 0 := by
  intro l
  induction l with
  | nil =>
    cases hp : listIsPre pat [] <;> simp [containsSub, countOcc, hp]
  | cons c rest ih =>
    cases hp : listIsPre pat (c :: rest) <;>
      simp [containsSub, countOcc, hp, ih]

/-- A prefix test passes for the left part of an appended pattern. -/
theorem listIsPre_of_append :
    ∀ x y l : List Char, listIsPre (x ++ y) l = true → listIsPre x l = true := by
  intro x
  induction x with
  | nil =>
    intro y l _
    rfl
  | cons a xs ih =>
    intro y l h
    cases l with
    | nil => exact absurd h (by simp [listIsPre])
    | cons b bs =>
      simp only [List.cons_append, listIsPre, Bool.and_eq_true, beq_iff_eq] at h ⊢
      exact ⟨h.1, ih y bs h.2⟩

/-- A pattern that is a prefix occurs as a substring. -/
theorem containsSub_of_isPre :
    ∀ pat l : List Char, listIsPre pat l = true → containsSub pat l = true := by
  intro pat l h
  cases l with
  | nil =>
    show listIsPre pat [] = true
    exact h
  | cons c rest =>
    simp [containsSub, h]

/-- A pattern inside a prefix occurs as a substring. -/
theorem containsSub_isPre_shift :
    ∀ u v l : List Char, listIsPre (u ++ v) l = true → containsSub v l = true := by
  intro u
  induction u with
  | nil =>
    intro v l h
    exact containsSub_of_isPre v l h
  | cons a u2 ih =>
    intro v l h
    cases l with
    | nil => exact absurd h (by simp [listIsPre])
    | cons b bs =>
      simp only [List.cons_append, listIsPre, Bool.and_eq_true] at h
      have := ih v bs h.2
      simp [containsSub, this]

/-- Substring occurrence is monotone under pattern extension. -/
theorem containsSub_mono_left :
    ∀ x y l : List Char, containsSub (x ++ y) l = true → containsSub x l = true := by
  intro x y l
  induction l with
  | nil =>
    intro h
    exact listIsPre_of_append x y [] h
  | cons c rest ih =>
    intro h
    simp only [containsSub, Bool.or_eq_true] at h ⊢
    rcases h with h | h
    · exact Or.inl (listIsPre_of_append x y _ h)
    · exact Or.inr (ih h)

/-- If a sub-pattern never occurs, no pattern containing it occurs. -/
theorem countOcc_zero_mono (pat1 u w : List Char) :
    ∀ s, countOcc pat1 s = 0 → countOcc (u ++ (pat1 ++ w)) s = 0 := by
  intro s
  induction s with
  | nil =>
    intro h
    cases hp : listIsPre (u ++ (pat1 ++ w)) [] with
    | false => simp [countOcc, hp]
    | true =>
      exfalso
      have hlen := listIsPre_length _ _ hp
      simp only [List.length_append, List.length_nil] at hlen
      have hp1 : pat1 = [] := List.eq_nil_of_length_eq_zero (by omega)
      rw [hp1] at h
      simp [countOcc, listIsPre] at h
  | cons c rest ih =>
    intro h
    have hsplit : (if listIsPre pat1 (c :: rest) = true then 1 else 0)
        + countOcc pat1 rest = 0 := h
    have hrest : countOcc pat1 rest = 0 := by omega
    have hcont : containsSub pat1 (c :: rest) = false :=
      (containsSub_false_iff pat1 _).mpr h
    have hpre : listIsPre (u ++ (pat1 ++ w)) (c :: rest) = false := by
      cases hp : listIsPre (u ++ (pat1 ++ w)) (c :: rest) with
      | false => rfl
      | true =>
        exfalso
        have h1 := containsSub_isPre_shift u (pat1 ++ w) _ hp
        have h2 := containsSub_mono_left pat1 w _ h1
        rw [hcont] at h2
        exact Bool.noConfusion h2
    rw [show countOcc (u ++ (pat1 ++ w)) (c :: rest)
        = (if listIsPre (u ++ (pat1 ++ w)) (c :: rest) = true then 1 else 0)
          + countOcc (u ++ (pat1 ++ w)) rest from rfl]
    rw [if_neg (by simp [hpre]), ih hrest]

/-- Occurrence counting over a joined list: zero when the separator and all
parts are occurrence-free and the decidable boundary checks pass. -/
theorem countOcc_joinWith_zero (pat : List Char) (hne : pat ≠ []) (sep : String)
    (hsep0 : countOcc pat sep.data = 0)
    (hsufsep : ∀ L1, L1 < pat.length → 1 ≤ L1 → listIsSuf (pat.take L1) sep.data = false)
    (hpresep : ∀ L1, L1 < pat.length → 1 ≤ L1 →
       (if (pat.drop L1).length ≤ sep.data.length then listIsPre (pat.drop L1) sep.data = false
        else listIsPre sep.data (pat.drop L1) = false)) :
    ∀ parts : List String, (∀ x ∈ parts, countOcc pat x.data = 0) →
      countOcc pat (joinWith sep parts).data = 0 := by
  intro parts
  induction parts with
  | nil =>
    intro _
    exact countOcc_nil_zero pat hne
  | cons x rest ih =>
    intro hparts
    cases rest with
    | nil => exact hparts x (List.mem_cons_self _ _)
    | cons y rest2 =>
      show countOcc pat (x ++ sep ++ joinWith sep (y :: rest2)).data = 0
      rw [String.data_append, String.data_append, List.append_assoc]
      rw [countOcc_append_rightChunk pat hne _ _ _ hpresep]
      rw [countOcc_append_leftChunk pat hne _ _ hsufsep]
      rw [hparts x (List.mem_cons_self _ _), hsep0,
        ih (fun z hz => hparts z (List.mem_cons_of_mem _ hz))]

/-- A substring of the tail is a substring of the list. -/
theorem containsSub_cons (p : List Char) (a : Char) (l : List Char)
    (h : containsSub p l = true) : containsSub p (a :: l) = true := by
  show (listIsPre p (a :: l) || containsSub p l) = true
  simp [h]

/-- A substring of the right part is a substring of the whole. -/
theorem containsSub_append_right :
    ∀ (p u l : List Char), containsSub p l = true → containsSub p (u ++ l) = true := by
  intro p u l h
  induction u with
  | nil => exact h
  | cons a u2 ih => exact containsSub_cons p a _ ih

/-- A list embedded between two others occurs as a substring. -/
theorem containsSub_embed (p u w : List Char) : containsSub p (u ++ (p ++ w)) = true :=
  containsSub_append_right p u _
    (containsSub_of_isPre p _ (listIsPre_append_of _ _ _ (listIsPre_refl p)))

/-- C6: the options clause of `select_from_stage` always contains the
file-format name, and (for a file-format name not containing `PATTERN`) it
contains the option `PATTERN => '<s3_key>'` exactly when
`restrict_file_pattern` is set, scoping the staged read to that exact
object key. -/
theorem options_clause_pattern_scoping (ff key : String) (restrict : Bool)
    (hff : containsSub "PATTERN".data ff.data = false) :
    containsSub ff.data (optionsClause ff key restrict).data = true ∧
    (containsSub ("PATTERN => \x27" ++ key ++ "\x27").data
        (optionsClause ff key restrict).data = true ↔ restrict = true) := by
  have hpat : ("PATTERN => \x27" ++ key ++ "\x27").data
      = "PATTERN".data ++ (" => \x27".data ++ (key.data ++ "\x27".data)) := by
    rw [String.data_append, String.data_append,
      show "PATTERN => \x27".data = "PATTERN".data ++ " => \x27".data from by decide]
    simp [List.append_assoc]
  cases restrict with
  | true =>
    have hdata : (optionsClause ff key true).data
        = "FILE_FORMAT => \x27".data ++ (ff.data ++ ("\x27".data ++ (", ".data
          ++ (("PATTERN => \x27" ++ key ++ "\x27").data ++ [])))) := by
      simp [optionsClause, selectOptions, joinWith, String.data_append, List.append_assoc]
    refine ⟨?_, ?_⟩
    · rw [hdata]
      exact containsSub_embed _ _ _
    · refine ⟨fun _ => rfl, fun _ => ?_⟩
      rw [hdata]
      rw [show "FILE_FORMAT => \x27".data ++ (ff.data ++ ("\x27".data ++ (", ".data
          ++ (("PATTERN => \x27" ++ key ++ "\x27").data ++ []))))
        = ("FILE_FORMAT => \x27".data ++ (ff.data ++ ("\x27".data ++ ", ".data)))
          ++ (("PATTERN => \x27" ++ key ++ "\x27").data ++ []) by
        simp [List.append_assoc]]
      exact containsSub_embed _ _ _
  | false =>
    have hdata : (optionsClause ff key false).data
        = "FILE_FORMAT => \x27".data ++ (ff.data ++ ("\x27".data ++ [])) := by
      simp [optionsClause, selectOptions, joinWith, String.data_append, List.append_assoc]
    refine ⟨?_, ?_⟩
    · rw [hdata]
      exact containsSub_embed _ _ _
    · refine ⟨fun hcontra => ?_, fun h => Bool.noConfusion h⟩
      exfalso
      have hcount : countOcc "PATTERN".data (optionsClause ff key false).data = 0 := by
        rw [hdata]
        rw [countOcc_append_leftChunk "PATTERN".data (by decide) _ _ (by decide)]
        rw [countOcc_append_rightChunk "PATTERN".data (by decide) _ _ _ (by decide)]
        rw [(containsSub_false_iff _ _).mp hff]
        decide
      have h1 : containsSub "PATTERN".data (optionsClause ff key false).data = true := by
        apply containsSub_mono_left "PATTERN".data (" => \x27".data ++ (key.data ++ "\x27".data))
        rw [← hpat]
        exact hcontra
      rw [(containsSub_false_iff _ _).mpr hcount] at h1
      exact Bool.noConfusion h1

/-- Witness for C6 at the spec's example: `restrict_pattern = true` with key
`batch_001.csv` puts `PATTERN => 'batch_001.csv'` into the options clause. -/
theorem options_clause_pattern_scoping_witness :
    containsSub "PATTERN".data ("F" : String).data = false ∧
    (containsSub ("F" : String).data (optionsClause "F" "batch_001.csv" true).data = true ∧
     (containsSub ("PATTERN => \x27" ++ "batch_001.csv" ++ "\x27").data
        (optionsClause "F" "batch_001.csv" true).data = true ↔ true = true)) :=
  ⟨by decide, options_clause_pattern_scoping "F" "batch_001.csv" true (by decide)⟩

/-- Lifting `MATCHED`-freeness to the `WHEN MATCHED` clause pattern. -/
theorem countOcc_WM_zero (x : List Char) (hx : containsSub "MATCHED".data x = false) :
    countOcc "WHEN MATCHED".data x = 0 := by
  have h := countOcc_zero_mono "MATCHED".data "WHEN ".data [] x
    ((containsSub_false_iff _ _).mp hx)
  rw [show "WHEN ".data ++ ("MATCHED".data ++ []) = "WHEN MATCHED".data from by decide] at h
  exact h

/-- Lifting `MATCHED`-freeness to the `WHEN NOT MATCHED` clause pattern. -/
theorem countOcc_WNM_zero (x : List Char) (hx : containsSub "MATCHED".data x = false) :
    countOcc "WHEN NOT MATCHED".data x = 0 := by
  have h := countOcc_zero_mono "MATCHED".data "WHEN NOT ".data [] x
    ((containsSub_false_iff _ _).mp hx)
  rw [show "WHEN NOT ".data ++ ("MATCHED".data ++ []) = "WHEN NOT MATCHED".data from by decide]
    at h
  exact h

/-- Decimal digit runs are `MATCHED`-free. -/
theorem countOcc_MATCHED_natChars (k : Nat) : countOcc "MATCHED".data (natChars k) = 0 := by
  rw [show "MATCHED".data = 'M' :: "ATCHED".data from rfl]
  apply countOcc_zero_of_head
  intro x hx
  have := natChars_digits k x hx
  exact char_ne_of_toNat_ne (by
    have hM : ('M').toNat = 77 := rfl
    omega)

/-- The staged-column expressions are `MATCHED`-free when the column names,
values and transforms are. -/
theorem columnExprs_MATCHED_free :
    ∀ (cols : List ColumnSpec) (idx : Nat),
      (∀ c ∈ cols, containsSub "MATCHED".data c.name.data = false ∧
          containsSub "MATCHED".data c.value.data = false ∧
          containsSub "MATCHED".data c.trans.data = false) →
      ∀ x ∈ columnExprs idx cols, countOcc "MATCHED".data x.data = 0 := by
  intro cols
  induction cols with
  | nil =>
    intro idx _ x hx
    simp [columnExprs] at hx
  | cons c rest ih =>
    intro idx hcols x hx
    obtain ⟨hname, hvalue, htrans⟩ := hcols c (List.mem_cons_self _ _)
    by_cases hv : c.value = ""
    · rw [show columnExprs idx (c :: rest)
          = (c.trans ++ "($" ++ natStr (idx + 1) ++ ")" ++ " " ++ c.name)
            :: columnExprs (idx + 1) rest from by simp [columnExprs, hv]] at hx
      rcases List.mem_cons.mp hx with rfl | hx
      · rw [show (c.trans ++ "($" ++ natStr (idx + 1) ++ ")" ++ " " ++ c.name).data
            = c.trans.data ++ ("($".data ++ (natChars (idx + 1)
              ++ (")".data ++ (" ".data ++ c.name.data)))) from by
          simp [String.data_append, natStr, data_mk, List.append_assoc]]
        rw [countOcc_append_rightChunk "MATCHED".data (by decide) _ ("($".data) _ (by decide)]
        rw [countOcc_append_leftChunk "MATCHED".data (by decide) ("($".data) _ (by decide)]
        rw [countOcc_append_rightChunk "MATCHED".data (by decide) _ (")".data) _ (by decide)]
        rw [countOcc_append_leftChunk "MATCHED".data (by decide) (")".data) _ (by decide)]
        rw [countOcc_append_leftChunk "MATCHED".data (by decide) (" ".data) _ (by decide)]
        rw [(containsSub_false_iff _ _).mp htrans, (containsSub_false_iff _ _).mp hname,
          countOcc_MATCHED_natChars]
        decide
      · exact ih (idx + 1) (fun d hd => hcols d (List.mem_cons_of_mem _ hd)) x hx
    · rw [show columnExprs idx (c :: rest)
          = (c.value ++ " " ++ c.name) :: columnExprs idx rest from by
        simp [columnExprs, hv]] at hx
      rcases List.mem_cons.mp hx with rfl | hx
      · rw [show (c.value ++ " " ++ c.name).data
            = c.value.data ++ (" ".data ++ c.name.data) from by
          simp [String.data_append, List.append_assoc]]
        rw [countOcc_append_rightChunk "MATCHED".data (by decide) _ (" ".data) _ (by decide)]
        rw [countOcc_append_leftChunk "MATCHED".data (by decide) (" ".data) _ (by decide)]
        rw [(containsSub_false_iff _ _).mp hvalue, (containsSub_false_iff _ _).mp hname]
        decide
      · exact ih idx (fun d hd => hcols d (List.mem_cons_of_mem _ hd)) x hx

/-- The options clause is `MATCHED`-free when the file format and key are. -/
theorem optionsClause_MATCHED_free (ff key : String) (restrict : Bool)
    (hff : containsSub "MATCHED".data ff.data = false)
    (hkey : containsSub "MATCHED".data key.data = false) :
    countOcc "MATCHED".data (optionsClause ff key restrict).data = 0 := by
  apply countOcc_joinWith_zero "MATCHED".data (by decide) ", " (by decide) (by decide) (by decide)
  intro x hx
  unfold selectOptions at hx
  cases restrict with
  | false =>
    simp at hx
    subst hx
    rw [show ("FILE_FORMAT => \x27" ++ ff ++ "\x27").data
        = "FILE_FORMAT => \x27".data ++ (ff.data ++ ("\x27".data ++ [])) from by
      simp [String.data_append, List.append_assoc]]
    rw [countOcc_append_leftChunk "MATCHED".data (by decide) _ _ (by decide)]
    rw [countOcc_append_rightChunk "MATCHED".data (by decide) _ ("\x27".data) _ (by decide)]
    rw [(containsSub_false_iff _ _).mp hff]
    decide
  | true =>
    simp at hx
    rcases hx with hx | hx
    · subst hx
      rw [show ("FILE_FORMAT => \x27" ++ ff ++ "\x27").data
          = "FILE_FORMAT => \x27".data ++ (ff.data ++ ("\x27".data ++ [])) from by
        simp [String.data_append, List.append_assoc]]
      rw [countOcc_append_leftChunk "MATCHED".data (by decide) _ _ (by decide)]
      rw [countOcc_append_rightChunk "MATCHED".data (by decide) _ ("\x27".data) _ (by decide)]
      rw [(containsSub_false_iff _ _).mp hff]
      decide
    · subst hx
      rw [show ("PATTERN => \x27" ++ key ++ "\x27").data
          = "PATTERN => \x27".data ++ (key.data ++ ("\x27".data ++ [])) from by
        simp [String.data_append, List.append_assoc]]
      rw [countOcc_append_leftChunk "MATCHED".data (by decide) _ _ (by decide)]
      rw [countOcc_append_rightChunk "MATCHED".data (by decide) _ ("\x27".data) _ (by decide)]
      rw [(containsSub_false_iff _ _).mp hkey]
      decide

/-- The staged-read expression is `MATCHED`-free when all its inputs are. -/
theorem select_from_stage_MATCHED_free (cols : List ColumnSpec)
    (ff key st : String) (restrict : Bool)
    (hst : containsSub "MATCHED".data st.data = false)
    (hkey : containsSub "MATCHED".data key.data = false)
    (hff : containsSub "MATCHED".data ff.data = false)
    (hcols : ∀ c ∈ cols, containsSub "MATCHED".data c.name.data = false ∧
        containsSub "MATCHED".data c.value.data = false ∧
        containsSub "MATCHED".data c.trans.data = false) :
    countOcc "MATCHED".data (select_from_stage cols ff key st restrict).data = 0 := by
  have hJ : countOcc "MATCHED".data (joinWith ", " (columnExprs 0 cols)).data = 0 :=
    countOcc_joinWith_zero "MATCHED".data (by decide) ", " (by decide) (by decide) (by decide)
      _ (columnExprs_MATCHED_free cols 0 hcols)
  have hOC := optionsClause_MATCHED_free ff key restrict hff hkey
  rw [show (select_from_stage cols ff key st restrict).data
      = "SELECT ".data ++ ((joinWith ", " (columnExprs 0 cols)).data
        ++ (" FROM \x27@".data ++ (st.data ++ ("/".data ++ (key.data
          ++ ("\x27 (".data ++ ((optionsClause ff key restrict).data
            ++ ")".data))))))) from by
    simp [select_from_stage, String.data_append, List.append_assoc]]
  rw [countOcc_append_leftChunk "MATCHED".data (by decide) _ _ (by decide)]
  rw [countOcc_append_rightChunk "MATCHED".data (by decide) _ (" FROM \x27@".data) _ (by decide)]
  rw [countOcc_append_leftChunk "MATCHED".data (by decide) (" FROM \x27@".data) _ (by decide)]
  rw [countOcc_append_rightChunk "MATCHED".data (by decide) _ ("/".data) _ (by decide)]
  rw [countOcc_append_leftChunk "MATCHED".data (by decide) ("/".data) _ (by decide)]
  rw [countOcc_append_rightChunk "MATCHED".data (by decide) _ ("\x27 (".data) _ (by decide)]
  rw [countOcc_append_leftChunk "MATCHED".data (by decide) ("\x27 (".data) _ (by decide)]
  rw [countOcc_append "MATCHED".data (by decide) _ (")".data)
    (fun L1 h1 h2 => Or.inr (by
      revert h1 h2
      revert L1
      decide))]
  rw [hJ, hOC, (containsSub_false_iff _ _).mp hst, (containsSub_false_iff _ _).mp hkey]
  decide

/-- The UPDATE SET list is `MATCHED`-free when the column names are. -/
theorem mergeUpdateList_MATCHED_free (cols : List ColumnSpec)
    (hn : ∀ c ∈ cols, containsSub "MATCHED".data c.name.data = false) :
    countOcc "MATCHED".data (mergeUpdateList cols).data = 0 := by
  apply countOcc_joinWith_zero "MATCHED".data (by decide) ", " (by decide) (by decide) (by decide)
  intro x hx
  obtain ⟨c, hc, rfl⟩ := List.mem_map.mp hx
  rw [show (c.name ++ "=s." ++ c.name).data
      = c.name.data ++ ("=s.".data ++ c.name.data) from by
    simp [String.data_append, List.append_assoc]]
  rw [countOcc_append_rightChunk "MATCHED".data (by decide) _ ("=s.".data) _ (by decide)]
  rw [countOcc_append_leftChunk "MATCHED".data (by decide) ("=s.".data) _ (by decide)]
  rw [(containsSub_false_iff _ _).mp (hn c hc)]
  decide

/-- The INSERT column list is `MATCHED`-free when the column names are. -/
theorem insertCols_MATCHED_free (cols : List ColumnSpec)
    (hn : ∀ c ∈ cols, containsSub "MATCHED".data c.name.data = false) :
    countOcc "MATCHED".data (joinWith ", " (cols.map (·.name))).data = 0 := by
  apply countOcc_joinWith_zero "MATCHED".data (by decide) ", " (by decide) (by decide) (by decide)
  intro x hx
  obtain ⟨c, hc, rfl⟩ := List.mem_map.mp hx
  exact (containsSub_false_iff _ _).mp (hn c hc)

/-- The INSERT values list is `MATCHED`-free when the column names are. -/
theorem insertVals_MATCHED_free (cols : List ColumnSpec)
    (hn : ∀ c ∈ cols, containsSub "MATCHED".data c.name.data = false) :
    countOcc "MATCHED".data (joinWith ", " (cols.map (fun c => "s." ++ c.name))).data = 0 := by
  apply countOcc_joinWith_zero "MATCHED".data (by decide) ", " (by decide) (by decide) (by decide)
  intro x hx
  obtain ⟨c, hc, rfl⟩ := List.mem_map.mp hx
  rw [show ("s." ++ c.name).data = "s.".data ++ c.name.data from String.data_append _ _]
  rw [countOcc_append_leftChunk "MATCHED".data (by decide) ("s.".data) _ (by decide)]
  rw [(containsSub_false_iff _ _).mp (hn c hc)]
  decide

/-- One `name=s.name` assignment contains exactly one `=s.` occurrence when
the name itself is `=s.`-free. -/
theorem assignment_eq_count (c : ColumnSpec)
    (hn : containsSub "=s.".data c.name.data = false) :
    countOcc "=s.".data (c.name ++ "=s." ++ c.name).data = 1 := by
  rw [show (c.name ++ "=s." ++ c.name).data
      = c.name.data ++ ("=s.".data ++ c.name.data) from by
    simp [String.data_append, List.append_assoc]]
  rw [countOcc_append_rightChunk "=s.".data (by decide) _ ("=s.".data) _ (by decide)]
  rw [countOcc_append_leftChunk "=s.".data (by decide) ("=s.".data) _ (by decide)]
  rw [(containsSub_false_iff _ _).mp hn]
  decide

/-- The UPDATE SET list contains exactly one `=s.` assignment marker per
input column, when the column names are `=s.`-free. -/
theorem mergeUpdateList_assignment_count :
    ∀ cols : List ColumnSpec,
      (∀ c ∈ cols, containsSub "=s.".data c.name.data = false) →
      countOcc "=s.".data (mergeUpdateList cols).data = cols.length := by
  intro cols
  induction cols with
  | nil =>
    intro _
    decide
  | cons c rest ih =>
    intro hn
    cases rest with
    | nil =>
      show countOcc "=s.".data (c.name ++ "=s." ++ c.name).data = 1
      exact assignment_eq_count c (hn c (List.mem_cons_self _ _))
    | cons d rest2 =>
      show countOcc "=s.".data
        ((c.name ++ "=s." ++ c.name) ++ ", "
          ++ joinWith ", " ((d :: rest2).map (fun e => e.name ++ "=s." ++ e.name))).data
        = (c :: d :: rest2).length
      rw [String.data_append, String.data_append, List.append_assoc]
      rw [countOcc_append_rightChunk "=s.".data (by decide) _ (", ".data) _ (by decide)]
      rw [countOcc_append_leftChunk "=s.".data (by decide) (", ".data) _ (by decide)]
      rw [assignment_eq_count c (hn c (List.mem_cons_self _ _))]
      rw [show countOcc "=s.".data (joinWith ", "
          ((d :: rest2).map (fun e => e.name ++ "=s." ++ e.name))).data
          = (d :: rest2).length from
        ih (fun e he => hn e (List.mem_cons_of_mem _ he))]
      rw [show countOcc "=s.".data ", ".data = 0 from by decide]
      simp only [List.length_cons]
      omega

/-- C4: the bulk-upsert statement contains exactly one `WHEN MATCHED` clause
and exactly one `WHEN NOT MATCHED` clause, and its `UPDATE SET` list contains
exactly one `=s.` assignment per input column.  The occurrence counts are
taken over the full output string; the hypotheses say that the interpolated
inputs do not themselves contain the clause keyword `MATCHED` (or, for
column names, the assignment marker `=s.`) — occurrences inside interpolated
data would not be clauses. -/
theorem create_merge_sql_clause_counts (t st key ff pk : String) (cols : List ColumnSpec)
    (restrict : Bool)
    (ht : containsSub "MATCHED".data t.data = false)
    (hst : containsSub "MATCHED".data st.data = false)
    (hkey : containsSub "MATCHED".data key.data = false)
    (hff : containsSub "MATCHED".data ff.data = false)
    (hpk : containsSub "MATCHED".data pk.data = false)
    (hcols : ∀ c ∈ cols, containsSub "MATCHED".data c.name.data = false ∧
        containsSub "MATCHED".data c.value.data = false ∧
        containsSub "MATCHED".data c.trans.data = false)
    (hnames2 : ∀ c ∈ cols, containsSub "=s.".data c.name.data = false) :
    countOcc "WHEN MATCHED".data (create_merge_sql t st key ff cols pk restrict).data = 1 ∧
    countOcc "WHEN NOT MATCHED".data (create_merge_sql t st key ff cols pk restrict).data = 1 ∧
    countOcc "=s.".data (mergeUpdateList cols).data = cols.length := by
  have hselM : containsSub "MATCHED".data
      (select_from_stage cols ff key st restrict).data = false :=
    (containsSub_false_iff _ _).mpr
      (select_from_stage_MATCHED_free cols ff key st restrict hst hkey hff hcols)
  have hupdM : containsSub "MATCHED".data (mergeUpdateList cols).data = false :=
    (containsSub_false_iff _ _).mpr
      (mergeUpdateList_MATCHED_free cols (fun c hc => (hcols c hc).1))
  have hinsM : containsSub "MATCHED".data
      (joinWith ", " (cols.map (·.name))).data = false :=
    (containsSub_false_iff _ _).mpr
      (insertCols_MATCHED_free cols (fun c hc => (hcols c hc).1))
  have hvalsM : containsSub "MATCHED".data
      (joinWith ", " (cols.map (fun c => "s." ++ c.name))).data = false :=
    (containsSub_false_iff _ _).mpr
      (insertVals_MATCHED_free cols (fun c hc => (hcols c hc).1))
  have hdecomp : (create_merge_sql t st key ff cols pk restrict).data
      = "MERGE INTO ".data ++ (t.data ++ (" t USING (".data
        ++ ((select_from_stage cols ff key st restrict).data ++ (") s ON ".data
        ++ (pk.data ++ (" WHEN MATCHED THEN UPDATE SET ".data
        ++ ((mergeUpdateList cols).data ++ (" WHEN NOT MATCHED THEN ".data
        ++ ("INSERT (".data ++ ((joinWith ", " (cols.map (·.name))).data
        ++ (") ".data ++ ("VALUES (".data
        ++ ((joinWith ", " (cols.map (fun c => "s." ++ c.name))).data
        ++ ")".data))))))))))))) := by
    simp [create_merge_sql, String.data_append, List.append_assoc]
  refine ⟨?_, ?_, mergeUpdateList_assignment_count cols hnames2⟩
  · have hlast : ∀ L1, L1 < ("WHEN MATCHED".data).length → 1 ≤ L1 →
        listIsPre ("WHEN MATCHED".data.drop L1) ")".data = false := by decide
    rw [hdecomp]
    rw [countOcc_append_leftChunk "WHEN MATCHED".data (by decide) _ _ (by decide)]
    rw [countOcc_append_rightChunk "WHEN MATCHED".data (by decide) _
      (" t USING (".data) _ (by decide)]
    rw [countOcc_append_leftChunk "WHEN MATCHED".data (by decide)
      (" t USING (".data) _ (by decide)]
    rw [countOcc_append_rightChunk "WHEN MATCHED".data (by decide) _
      (") s ON ".data) _ (by decide)]
    rw [countOcc_append_leftChunk "WHEN MATCHED".data (by decide)
      (") s ON ".data) _ (by decide)]
    rw [countOcc_append_rightChunk "WHEN MATCHED".data (by decide) _
      (" WHEN MATCHED THEN UPDATE SET ".data) _ (by decide)]
    rw [countOcc_append_leftChunk "WHEN MATCHED".data (by decide)
      (" WHEN MATCHED THEN UPDATE SET ".data) _ (by decide)]
    rw [countOcc_append_rightChunk "WHEN MATCHED".data (by decide) _
      (" WHEN NOT MATCHED THEN ".data) _ (by decide)]
    rw [countOcc_append_leftChunk "WHEN MATCHED".data (by decide)
      (" WHEN NOT MATCHED THEN ".data) _ (by decide)]
    rw [countOcc_append_leftChunk "WHEN MATCHED".data (by decide)
      ("INSERT (".data) _ (by decide)]
    rw [countOcc_append_rightChunk "WHEN MATCHED".data (by decide) _
      (") ".data) _ (by decide)]
    rw [countOcc_append_leftChunk "WHEN MATCHED".data (by decide)
      (") ".data) _ (by decide)]
    rw [countOcc_append_leftChunk "WHEN MATCHED".data (by decide)
      ("VALUES (".data) _ (by decide)]
    rw [countOcc_append "WHEN MATCHED".data (by decide) _ (")".data)
      (fun L1 h1 h2 => Or.inr (hlast L1 h1 h2))]
    rw [countOcc_WM_zero t.data ht, countOcc_WM_zero _ hselM, countOcc_WM_zero _ hpk,
      countOcc_WM_zero _ hupdM, countOcc_WM_zero _ hinsM, countOcc_WM_zero _ hvalsM]
    decide
  · have hlast : ∀ L1, L1 < ("WHEN NOT MATCHED".data).length → 1 ≤ L1 →
        listIsPre ("WHEN NOT MATCHED".data.drop L1) ")".data = false := by decide
    rw [hdecomp]
    rw [countOcc_append_leftChunk "WHEN NOT MATCHED".data (by decide) _ _ (by decide)]
    rw [countOcc_append_rightChunk "WHEN NOT MATCHED".data (by decide) _
      (" t USING (".data) _ (by decide)]
    rw [countOcc_append_leftChunk "WHEN NOT MATCHED".data (by decide)
      (" t USING (".data) _ (by decide)]
    rw [countOcc_append_rightChunk "WHEN NOT MATCHED".data (by decide) _
      (") s ON ".data) _ (by decide)]
    rw [countOcc_append_leftChunk "WHEN NOT MATCHED".data (by decide)
      (") s ON ".data) _ (by decide)]
    rw [countOcc_append_rightChunk "WHEN NOT MATCHED".data (by decide) _
      (" WHEN MATCHED THEN UPDATE SET ".data) _ (by decide)]
    rw [countOcc_append_leftChunk "WHEN NOT MATCHED".data (by decide)
      (" WHEN MATCHED THEN UPDATE SET ".data) _ (by decide)]
    rw [countOcc_append_rightChunk "WHEN NOT MATCHED".data (by decide) _
      (" WHEN NOT MATCHED THEN ".data) _ (by decide)]
    rw [countOcc_append_leftChunk "WHEN NOT MATCHED".data (by decide)
      (" WHEN NOT MATCHED THEN ".data) _ (by decide)]
    rw [countOcc_append_leftChunk "WHEN NOT MATCHED".data (by decide)
      ("INSERT (".data) _ (by decide)]
    rw [countOcc_append_rightChunk "WHEN NOT MATCHED".data (by decide) _
      (") ".data) _ (by decide)]
    rw [countOcc_append_leftChunk "WHEN NOT MATCHED".data (by decide)
      (") ".data) _ (by decide)]
    rw [countOcc_append_leftChunk "WHEN NOT MATCHED".data (by decide)
      ("VALUES (".data) _ (by decide)]
    rw [countOcc_append "WHEN NOT MATCHED".data (by decide) _ (")".data)
      (fun L1 h1 h2 => Or.inr (hlast L1 h1 h2))]
    rw [countOcc_WNM_zero t.data ht, countOcc_WNM_zero _ hselM, countOcc_WNM_zero _ hpk,
      countOcc_WNM_zero _ hupdM, countOcc_WNM_zero _ hinsM, countOcc_WNM_zero _ hvalsM]
    decide

/-- Witness for C4 on a concrete upsert: one column, ordinary identifiers. -/
theorem create_merge_sql_clause_counts_witness :
    containsSub "MATCHED".data ("TBL" : String).data = false ∧
    containsSub "MATCHED".data ("S1" : String).data = false ∧
    containsSub "MATCHED".data ("k1" : String).data = false ∧
    containsSub "MATCHED".data ("F" : String).data = false ∧
    containsSub "MATCHED".data ("t.id = s.id" : String).data = false ∧
    (∀ c ∈ ([⟨"id", "", "to_number"⟩] : List ColumnSpec),
        containsSub "MATCHED".data c.name.data = false ∧
        containsSub "MATCHED".data c.value.data = false ∧
        containsSub "MATCHED".data c.trans.data = false) ∧
    (∀ c ∈ ([⟨"id", "", "to_number"⟩] : List ColumnSpec),
        containsSub "=s.".data c.name.data = false) ∧
    (countOcc "WHEN MATCHED".data
        (create_merge_sql "TBL" "S1" "k1" "F" [⟨"id", "", "to_number"⟩]
          "t.id = s.id" false).data = 1 ∧
     countOcc "WHEN NOT MATCHED".data
        (create_merge_sql "TBL" "S1" "k1" "F" [⟨"id", "", "to_number"⟩]
          "t.id = s.id" false).data = 1 ∧
     countOcc "=s.".data (mergeUpdateList [⟨"id", "", "to_number"⟩]).data
        = ([⟨"id", "", "to_number"⟩] : List ColumnSpec).length) :=
  ⟨by decide, by decide, by decide, by decide, by decide, by decide, by decide,
    create_merge_sql_clause_counts "TBL" "S1" "k1" "F" "t.id = s.id"
      [⟨"id", "", "to_number"⟩] false (by decide) (by decide) (by decide) (by decide)
      (by decide) (by decide) (by decide)⟩

end TargetSnowflake
